import Mathlib

/-!
# Verification of the tack-cli plugin discovery and command-synthesis core

This file gives a shallow embedding, in Lean 4, of the core subsystems of the
tack-cli repository and proves properties of it:

* the schema-to-flag name mapping and config reconstruction
  (`internal/cli` flag mapper, file `part_008`: `addFlagsForOperation`,
  `buildConfigFromFlags`);
* the manifest-driven command-tree synthesis
  (`internal/cli/dynamic.go`: `generatePluginCommand`);
* plugin discovery with its discovery cache
  (`internal/plugin/loader.go`: `DiscoverAll`, `loadEmbeddedPlugins`,
  `loadLocalPlugins`, `loadPluginBytes`, `LoadByName`;
  `DiscoveryCache` from `internal/runtime/executor.go`'s package neighbour);
* the group mutation commands
  (`internal/cli/group_cmd.go`: create / delete / remove).

Modelling conventions:

* Go maps are modelled as association lists (`List (String × α)`) with
  `mapLookup` / `mapInsert` / `mapErase`; `mapInsert` overwrites an existing
  key in place and otherwise appends, so key sets stay duplicate-free when a
  map is built from the empty map, matching Go map semantics.  Functions that
  in Go return map values in nondeterministic iteration order are modelled as
  returning the name-keyed map itself.
* Machine integers (file sizes, `time.Time` values) are modelled as `Nat`;
  byte slices as `List Nat`.
* The WASM runtime call that extracts a manifest from plugin bytes
  (`runtime.NewPluginRunner` + `LoadPlugin(...).Manifest`) is an external
  collaborator; it is passed in as a function `runManifest : Bytes → Option
  Manifest`, `none` modelling a load/parse failure of that one candidate.
* File-system reads performed *later* by a plugin's byte loader are modelled
  by passing the file system at call time as a function `String → Option
  Bytes` (path to current content).  A loader closure therefore has type
  `(String → Option Bytes) → Except String Bytes`.
* `Config.Save` (YAML persistence) is an external effect; its success or
  failure is a `Bool` parameter of the group-mutation models.
-/

namespace Tack

/-! ## Association-list maps (Go `map[string]T`) -/

/-- Lookup in an association list, first match wins (Go map read). -/
def mapLookup {α : Type} : List (String × α) → String → Option α
  | [], _ => none
  | (k, v) :: rest, key => if k = key then some v else mapLookup rest key

/-- Go map assignment `m[k] = v`: replace the binding if the key is present,
otherwise append a new binding. -/
def mapInsert {α : Type} : List (String × α) → String → α → List (String × α)
  | [], key, v => [(key, v)]
  | (k, w) :: rest, key, v =>
    if k = key then (key, v) :: rest else (k, w) :: mapInsert rest key v

/-- Go `delete(m, k)`: remove every binding of the key. -/
def mapErase {α : Type} (m : List (String × α)) (key : String) : List (String × α) :=
  m.filter (fun kv => kv.1 ≠ key)

/-! ## Schema-to-flag name mapping (`part_008`)

`addFlagsForOperation` computes each flag name by
`strings.ReplaceAll(name, "_", "-")`; `buildConfigFromFlags` reverses it by
`strings.ReplaceAll(f.Name, "-", "_")`.  With a one-character pattern,
`strings.ReplaceAll` is exactly a character-by-character substitution. -/

/-- `strings.ReplaceAll s (String.singleton a) (String.singleton b)`:
replace every occurrence of character `a` by `b`. -/
def replaceAllChar (s : String) (a b : Char) : String :=
  ⟨s.data.map (fun c => if c = a then b else c)⟩

/-- Flag name of a schema field name (`addFlagsForOperation`):
every underscore becomes a hyphen. -/
def flagNameOfField (name : String) : String :=
  replaceAllChar name '_' '-'

/-- Field name recovered from a flag name (`buildConfigFromFlags`):
every hyphen becomes an underscore. -/
def fieldNameOfFlag (flagName : String) : String :=
  replaceAllChar flagName '-' '_'

/-- Characters the claim allows in a property name:
lowercase letters, digits, underscore. -/
def isFieldChar (c : Char) : Bool :=
  c.isLower || c.isDigit || c = '_'

/-! ## The command flag set and `buildConfigFromFlags` (`part_008`)

The operation command's `RunE` calls `buildConfigFromFlags(cmd, service, op)`.
`cmd.Flags().VisitAll` visits every flag of the command (its own schema flags
plus the inherited persistent flags `output`, `quiet`, ...), in order; only
flags with `f.Changed` contribute.  Every flag registered by this program has
one of the five pflag value types `string`, `int`, `bool`, `stringSlice`,
`stringToString`, which the `switch` in the source handles exhaustively. -/

/-- A pflag value, covering the five value types registered by this program. -/
inductive FlagValue where
  | str (v : String)
  | int (v : Int)
  | bool (v : Bool)
  | strSlice (v : List String)
  | strMap (v : List (String × String))
  deriving DecidableEq, Repr

/-- One entry of the command's flag set as seen by `VisitAll`:
its name, whether the user changed it, and its value. -/
structure Flag where
  name : String
  changed : Bool
  value : FlagValue
  deriving DecidableEq, Repr

/-- The internal flag names that `buildConfigFromFlags` skips
(after the hyphen-to-underscore substitution). -/
def internalConfigKey (jsonName : String) : Bool :=
  jsonName = "output" || jsonName = "plugin_path" || jsonName = "quiet"

/-- `buildConfigFromFlags` (from the source): start from
`service` / `operation` taken from the command path, then for every visited
flag that the user changed, map its name back to the field name and store its
value — unless the mapped name is one of the internal keys. -/
def buildConfigFromFlags (flags : List Flag) (serviceName operationName : String) :
    List (String × FlagValue) :=
  flags.foldl
    (fun config f =>
      if !f.changed then config
      else
        let jsonName := fieldNameOfFlag f.name
        if internalConfigKey jsonName then config
        else mapInsert config jsonName f.value)
    [("service", .str serviceName), ("operation", .str operationName)]

/-- The config that claim C4 describes, written from the claim's words:
the base map extended with *every* flag the user supplied, with no other
exceptions. -/
def claimedConfigFromFlags (flags : List Flag) (serviceName operationName : String) :
    List (String × FlagValue) :=
  flags.foldl
    (fun config f =>
      if !f.changed then config
      else mapInsert config (fieldNameOfFlag f.name) f.value)
    [("service", .str serviceName), ("operation", .str operationName)]

/-! ## Manifests and the parsed config schema -/

/-- One property of a plugin's JSON config schema (`schemaProperty` in
`part_008`).  The JSON values of `enum` entries and of the default are
abstracted to strings; no theorem below depends on their content. -/
structure SchemaProperty where
  type : String
  enum : List String
  defaultRaw : Option String
  description : String
  deriving DecidableEq, Repr

/-- `parsedSchema` in `part_008`: the result of unmarshalling a config
schema. -/
structure ParsedSchema where
  properties : List (String × SchemaProperty)
  required : List String
  deriving DecidableEq, Repr

/-- The raw `json.RawMessage` carrying a manifest's config schema, abstracted
to the three cases `parseConfigSchema` distinguishes: empty bytes, bytes that
unmarshal to a schema, and bytes on which `json.Unmarshal` fails (for example
`{`). -/
inductive RawSchema where
  | empty
  | wellFormed (s : ParsedSchema)
  | malformed
  deriving DecidableEq, Repr

/-- `parseConfigSchema` (`part_008`): empty input gives an empty schema,
malformed input gives an error. -/
def parseConfigSchema : RawSchema → Except String ParsedSchema
  | .empty => .ok ⟨[], []⟩
  | .wellFormed s => .ok s
  | .malformed => .error "parsing config schema"

/-- An operation of a service (`abi.OperationManifest`), restricted to the
fields the synthesizer reads.  Examples and the output schema only feed help
text and formatting and are not modelled. -/
structure OperationManifest where
  name : String
  description : String
  inputFields : List String
  deriving DecidableEq, Repr

/-- A service of a plugin (`abi.ServiceManifest`). -/
structure ServiceManifest where
  name : String
  description : String
  operations : List OperationManifest
  deriving DecidableEq, Repr

/-- A plugin manifest (`abi.Manifest`), restricted to the fields the
discovery and synthesis code reads.  `services` is the Go map
`map[string]ServiceManifest`, given in enumeration order. -/
structure Manifest where
  name : String
  description : String
  services : List (String × ServiceManifest)
  configSchema : RawSchema
  deriving DecidableEq, Repr

/-! ## Command-tree synthesis (`internal/cli/dynamic.go`) -/

/-- A synthesized cobra command, restricted to its `Use` string and its
subcommand list; flags, help text and the run closure are modelled
separately. -/
inductive Cmd where
  | node (use : String) (children : List Cmd)

/-- The `Use` string of a command. -/
def Cmd.use : Cmd → String
  | .node u _ => u

/-- The subcommands of a command. -/
def Cmd.children : Cmd → List Cmd
  | .node _ c => c

/-- `createOperationCommand`: an operation becomes a leaf command named after
the operation. -/
def createOperationCommand (op : OperationManifest) : Cmd :=
  .node op.name []

/-- `generatePluginCommand`: on a schema-parse failure the plugin node is
returned with no children (its run function reports the error); otherwise,
with more than one service each service becomes an intermediate node holding
its operations, and with at most one service the operations of every service
are attached directly to the plugin node. -/
def generatePluginCommand (m : Manifest) : Cmd :=
  match parseConfigSchema m.configSchema with
  | .error _ => .node m.name []
  | .ok _ =>
    if m.services.length > 1 then
      .node m.name
        (m.services.map fun sv => Cmd.node sv.1 (sv.2.operations.map createOperationCommand))
    else
      .node m.name
        ((m.services.map fun sv => sv.2.operations.map createOperationCommand).flatten)

/-! ## Plugin discovery (`internal/plugin/loader.go`) -/

/-- `strings.HasSuffix` on the character level. -/
def endsWithStr (s suffix : String) : Bool :=
  List.isSuffixOf suffix.data s.data

/-- The Go test `strings.HasPrefix`-style check used by glob matching. -/
def startsWithStr (s pre : String) : Bool :=
  List.isPrefixOf pre.data s.data

/-- Byte-wise lexicographic comparison of strings, as Go compares file names
(UTF-8 byte order coincides with code-point order). -/
def charListLe : List Char → List Char → Bool
  | [], _ => true
  | _ :: _, [] => false
  | a :: as, b :: bs =>
    if a.toNat < b.toNat then true
    else if b.toNat < a.toNat then false
    else charListLe as bs

/-- String comparison used when sorting glob matches. -/
def strLe (a b : String) : Bool :=
  charListLe a.data b.data

/-- Raw WASM bytes. -/
abbrev Bytes := List Nat

/-- The file system at the moment a byte loader is invoked:
path to current content. -/
abbrev FileSys := String → Option Bytes

/-- `os.ReadFile` against the file system at call time. -/
def readFS (fs : FileSys) (path : String) : Except String Bytes :=
  match fs path with
  | some b => .ok b
  | none => .error ("reading " ++ path)

/-- One entry of the local plugins directory as returned by `os.ReadDir`,
together with the `Info()` data (size is `bytes.length`) and the content that
`os.ReadFile` returns during the discovery pass. -/
structure LocalFile where
  name : String
  isDir : Bool
  bytes : Bytes
  modTime : Nat
  deriving DecidableEq, Repr

/-- One entry of the embedded `plugins/` directory of the `embed.FS`.
Embedded content is fixed at build time, so no modification time exists. -/
structure EmbedFile where
  name : String
  isDir : Bool
  bytes : Bytes
  deriving DecidableEq, Repr

/-- `CacheEntry`: size, modification time (zero for embedded sources) and the
manifest snapshot. -/
structure CacheEntry where
  modTime : Nat
  size : Nat
  manifest : Manifest
  deriving DecidableEq, Repr

/-- `DiscoveryCache.Files`. -/
abbrev Cache := List (String × CacheEntry)

/-- `DiscoveredPlugin`: manifest, byte loader, source tag, path. -/
structure DiscoveredPlugin where
  manifest : Manifest
  loader : FileSys → Except String Bytes
  source : String
  path : String

/-- `filepath.Join(dir, name)` for a clean directory path. -/
def joinPath (dir name : String) : String :=
  dir ++ "/" ++ name

/-- The cache key of an embedded plugin file: `embedded://plugins/<name>`. -/
def embeddedKey (name : String) : String :=
  "embedded://plugins/" ++ name

/-- `loadPluginBytes`: run the WASM runtime over the bytes to read the
manifest; on success the returned plugin's loader hands back the *captured*
byte slice (`func() ([]byte, error) { return data, nil }`), ignoring the file
system at call time.  `none` models any runner/load error. -/
def loadPluginBytes (runManifest : Bytes → Option Manifest) (data : Bytes)
    (source path : String) : Option DiscoveredPlugin :=
  match runManifest data with
  | none => none
  | some m => some ⟨m, fun _ => .ok data, source, path⟩

/-- A directory entry participates in local discovery iff it is a
non-directory whose name ends in `.wasm`. -/
def localWasmCandidate (e : LocalFile) : Bool :=
  !e.isDir && endsWithStr e.name ".wasm"

/-- The plugin produced for a local cache hit: manifest from the cache, and a
loader that re-reads the file from disk at call time. -/
def localHitPlugin (pluginsDir : String) (e : LocalFile) (cached : CacheEntry) :
    DiscoveredPlugin :=
  ⟨cached.manifest, fun fs => readFS fs (joinPath pluginsDir e.name), "local",
    joinPath pluginsDir e.name⟩

/-- The cache-miss path of `loadLocalPlugins` for one entry: read the file,
run the runtime, record the new cache entry and set the updated flag; a
runtime failure skips the candidate. -/
def localMissStep (runManifest : Bytes → Option Manifest) (pluginsDir : String) :
    List DiscoveredPlugin × Bool × Cache → LocalFile →
    List DiscoveredPlugin × Bool × Cache
  | (ps, updated, cache), e =>
    match loadPluginBytes runManifest e.bytes "local" (joinPath pluginsDir e.name) with
    | none => (ps, updated, cache)
    | some p =>
      (ps ++ [p], true,
        mapInsert cache (joinPath pluginsDir e.name)
          ⟨e.modTime, e.bytes.length, p.manifest⟩)

/-- One iteration of the `loadLocalPlugins` loop: skip non-candidates; use the
cache entry when both size and modification time match, otherwise take the
miss path. -/
def localStep (runManifest : Bytes → Option Manifest) (pluginsDir : String) :
    List DiscoveredPlugin × Bool × Cache → LocalFile →
    List DiscoveredPlugin × Bool × Cache
  | (ps, updated, cache), e =>
    if !localWasmCandidate e then (ps, updated, cache)
    else
      match mapLookup cache (joinPath pluginsDir e.name) with
      | some cached =>
        if cached.size = e.bytes.length ∧ cached.modTime = e.modTime then
          (ps ++ [localHitPlugin pluginsDir e cached], updated, cache)
        else localMissStep runManifest pluginsDir (ps, updated, cache) e
      | none => localMissStep runManifest pluginsDir (ps, updated, cache) e

/-- `loadLocalPlugins`: fold the loop over the directory listing. -/
def loadLocalPlugins (runManifest : Bytes → Option Manifest) (pluginsDir : String)
    (entries : List LocalFile) (cache : Cache) :
    List DiscoveredPlugin × Bool × Cache :=
  entries.foldl (localStep runManifest pluginsDir) ([], false, cache)

/-- An embedded entry participates in discovery iff it is a non-directory
whose name ends in `.wasm`. -/
def embedWasmCandidate (e : EmbedFile) : Bool :=
  !e.isDir && endsWithStr e.name ".wasm"

/-- The plugin produced for an embedded cache hit: manifest from the cache; the
loader re-reads the embedded FS, whose content is fixed at build time. -/
def embeddedHitPlugin (e : EmbedFile) (cached : CacheEntry) : DiscoveredPlugin :=
  ⟨cached.manifest, fun _ => .ok e.bytes, "embedded", embeddedKey e.name⟩

/-- The cache-miss path of `loadEmbeddedPlugins` for one entry; the stored
cache entry has only size and manifest (the zero time stands for the unset
`ModTime`). -/
def embeddedMissStep (runManifest : Bytes → Option Manifest) :
    List DiscoveredPlugin × Bool × Cache → EmbedFile →
    List DiscoveredPlugin × Bool × Cache
  | (ps, updated, cache), e =>
    match loadPluginBytes runManifest e.bytes "embedded" (embeddedKey e.name) with
    | none => (ps, updated, cache)
    | some p =>
      (ps ++ [p], true,
        mapInsert cache (embeddedKey e.name) ⟨0, e.bytes.length, p.manifest⟩)

/-- One iteration of the `loadEmbeddedPlugins` loop: a cache entry is used
when its size matches; no modification-time check exists for the embedded
tier. -/
def embeddedStep (runManifest : Bytes → Option Manifest) :
    List DiscoveredPlugin × Bool × Cache → EmbedFile →
    List DiscoveredPlugin × Bool × Cache
  | (ps, updated, cache), e =>
    if !embedWasmCandidate e then (ps, updated, cache)
    else
      match mapLookup cache (embeddedKey e.name) with
      | some cached =>
        if cached.size = e.bytes.length then
          (ps ++ [embeddedHitPlugin e cached], updated, cache)
        else embeddedMissStep runManifest (ps, updated, cache) e
      | none => embeddedMissStep runManifest (ps, updated, cache) e

/-- `loadEmbeddedPlugins`: fold the loop over the embedded directory
listing (an unreadable embedded directory is the empty listing). -/
def loadEmbeddedPlugins (runManifest : Bytes → Option Manifest)
    (entries : List EmbedFile) (cache : Cache) :
    List DiscoveredPlugin × Bool × Cache :=
  entries.foldl (embeddedStep runManifest) ([], false, cache)

/-- The state of `os.ReadDir` on the local plugins directory: a listing, a
not-exist error (tolerated), or any other error (aborts `DiscoverAll`). -/
inductive LocalDirState where
  | ok (entries : List LocalFile)
  | notExist
  | failOther

/-- Merge discovered plugins into the name-keyed map
(`plugins[p.Manifest.Name] = p`). -/
def pluginsByName (ps : List DiscoveredPlugin)
    (m : List (String × DiscoveredPlugin)) : List (String × DiscoveredPlugin) :=
  ps.foldl (fun acc p => mapInsert acc p.manifest.name p) m

/-- `DiscoverAll`: embedded tier first, then the local tier (overwriting by
name), then one cache save iff either tier updated the cache.  The result is
the name-keyed plugin map (the Go slice enumerates it in nondeterministic map
order) together with the list of cache writes performed. -/
def DiscoverAll (runManifest : Bytes → Option Manifest) (pluginsDir : String)
    (embedded : List EmbedFile) (localDir : LocalDirState) (cache : Cache) :
    Except String (List (String × DiscoveredPlugin) × List Cache) :=
  let eRes := loadEmbeddedPlugins runManifest embedded cache
  match localDir with
  | .failOther => .error "loading local plugins"
  | .notExist =>
    .ok (pluginsByName eRes.1 [], if eRes.2.1 then [eRes.2.2] else [])
  | .ok les =>
    let lRes := loadLocalPlugins runManifest pluginsDir les eRes.2.2
    .ok (pluginsByName lRes.1 (pluginsByName eRes.1 []),
      if eRes.2.1 || lRes.2.1 then [lRes.2.2] else [])

/-! ## `LoadByName` resolution -/

/-- Does a file name match the glob pattern `<name>@*.wasm`?
(`*` matches any, possibly empty, run of non-separator characters, and file
names contain no separator.) -/
def globVersionMatch (name fname : String) : Bool :=
  startsWithStr fname (name ++ "@") && endsWithStr fname ".wasm"
    && name.length + 6 ≤ fname.length

/-- Insert into a `≤`-sorted list of strings. -/
def insertSorted (x : String) : List String → List String
  | [] => [x]
  | y :: ys => if strLe x y then x :: y :: ys else y :: insertSorted x ys

/-- Sort strings ascending; `filepath.Glob` returns its matches in this order
because `os.ReadDir` sorts the directory by file name. -/
def sortStrings : List String → List String
  | [] => []
  | x :: xs => insertSorted x (sortStrings xs)

/-- The environment `LoadByName` resolves against: the local plugins
directory, the embedded `plugins/` listing, and the optional OCI registry
service (`stack`), abstracted to a function from plugin name to the cached
WASM path and bytes it produces. -/
structure LoadEnv where
  pluginsDir : String
  localEntries : List LocalFile
  embedded : List EmbedFile
  stack : Option (String → Except String (String × Bytes))

/-- `os.ReadFile` inside the local plugins directory during resolution. -/
def readLocalDir (entries : List LocalFile) (fname : String) : Except String Bytes :=
  match entries.find? (fun e => e.name = fname) with
  | some e => if e.isDir then .error "is a directory" else .ok e.bytes
  | none => .error "no such file"

/-- `loadLocalFile`: read the file and load it via `loadPluginBytes` with
source `local`. -/
def loadLocalFile (runManifest : Bytes → Option Manifest) (env : LoadEnv)
    (fname : String) : Except String DiscoveredPlugin :=
  match readLocalDir env.localEntries fname with
  | .error msg => .error msg
  | .ok data =>
    match loadPluginBytes runManifest data "local" (joinPath env.pluginsDir fname) with
    | none => .error "loading plugin"
    | some p => .ok p

/-- `loadEmbeddedFile`: read `plugins/<fname>` from the embedded FS and load
it with source `embedded` and path `embedded://plugins/<fname>`. -/
def loadEmbeddedFile (runManifest : Bytes → Option Manifest) (env : LoadEnv)
    (fname : String) : Except String DiscoveredPlugin :=
  match env.embedded.find? (fun e => e.name = fname) with
  | none => .error "no such embedded file"
  | some e =>
    if e.isDir then .error "is a directory"
    else
      match loadPluginBytes runManifest e.bytes "embedded" (embeddedKey fname) with
      | none => .error "loading plugin"
      | some p => .ok p

/-- `loadFromOCI`: resolve and fetch through the host-sdk plugin service
(external), then load the fetched bytes with source `oci`. -/
def loadFromOCI (runManifest : Bytes → Option Manifest)
    (oci : String → Except String (String × Bytes)) (name : String) :
    Except String DiscoveredPlugin :=
  match oci name with
  | .error msg => .error msg
  | .ok (wasmPath, data) =>
    match loadPluginBytes runManifest data "oci" wasmPath with
    | none => .error "loading plugin"
    | some p => .ok p

/-- The glob matches of `<name>@*.wasm` among the local entries, as file
names. -/
def versionedMatches (env : LoadEnv) (name : String) : List String :=
  (env.localEntries.filter (fun e => globVersionMatch name e.name)).map
    (fun e => e.name)

/-- `LoadByName`: exact local file, then the last of the sorted versioned glob
matches, then the embedded file, then the OCI service when configured,
otherwise a not-found error. -/
def LoadByName (runManifest : Bytes → Option Manifest) (env : LoadEnv)
    (name : String) : Except String DiscoveredPlugin :=
  if env.localEntries.any (fun e => e.name = name ++ ".wasm") then
    loadLocalFile runManifest env (name ++ ".wasm")
  else
    match (sortStrings (versionedMatches env name)).getLast? with
    | some m => loadLocalFile runManifest env m
    | none =>
      if env.embedded.any (fun e => e.name = name ++ ".wasm") then
        loadEmbeddedFile runManifest env (name ++ ".wasm")
      else
        match env.stack with
        | some oci => loadFromOCI runManifest oci name
        | none => .error ("plugin " ++ name ++ " not found")

/-! ## The all-hit (idempotent re-discovery) predicates -/

/-- Every local candidate has a fresh cache entry. -/
def localAllHit (pluginsDir : String) (entries : List LocalFile) (cache : Cache) : Prop :=
  ∀ e ∈ entries, localWasmCandidate e = true →
    ∃ cached, mapLookup cache (joinPath pluginsDir e.name) = some cached ∧
      cached.size = e.bytes.length ∧ cached.modTime = e.modTime

/-- Every embedded candidate has a cache entry of matching size. -/
def embeddedAllHit (entries : List EmbedFile) (cache : Cache) : Prop :=
  ∀ e ∈ entries, embedWasmCandidate e = true →
    ∃ cached, mapLookup cache (embeddedKey e.name) = some cached ∧
      cached.size = e.bytes.length

/-! ## Group mutation commands (`internal/cli/group_cmd.go`) -/

/-- `config.GroupConfig`. -/
structure GroupConfig where
  description : String
  plugins : List String
  deriving DecidableEq, Repr

/-- `cfg.Groups`. -/
abbrev Groups := List (String × GroupConfig)

/-- Outcome of a group mutation: the error returned by `RunE` (if any) and
the in-memory group map after the command. -/
structure GroupCmdOutcome where
  err : Option String
  groups : Groups
  deriving DecidableEq, Repr

/-- The built-in command names a group may not collide with. -/
def reservedCommands : List String :=
  ["completion", "version", "plugin", "group", "help"]

/-- `group create <name>`: reject duplicates, the empty name and reserved
names; insert the new empty group; on a failed save, roll the insertion
back. -/
def groupCreate (groups : Groups) (name description : String) (saveOk : Bool) :
    GroupCmdOutcome :=
  if (mapLookup groups name).isSome then ⟨some "group already exists", groups⟩
  else if name = "" then ⟨some "group name cannot be empty", groups⟩
  else if reservedCommands.contains name then
    ⟨some "group name conflicts with built-in command", groups⟩
  else
    let inserted := mapInsert groups name ⟨description, []⟩
    if saveOk then ⟨none, inserted⟩
    else ⟨some "save failed", mapErase inserted name⟩

/-- `group delete <name>`: the reserved `top` group cannot be deleted; delete
the group; on a failed save, re-insert the old value. -/
def groupDelete (groups : Groups) (name : String) (saveOk : Bool) : GroupCmdOutcome :=
  if name = "top" then ⟨some "cannot delete the top group", groups⟩
  else
    match mapLookup groups name with
    | none => ⟨some "group not found", groups⟩
    | some old =>
      let erased := mapErase groups name
      if saveOk then ⟨none, erased⟩
      else ⟨some "save failed", mapInsert erased name old⟩

/-- `group remove <group> <plugin>...`: the group must exist and contain every
named plugin; removal from `top` additionally requires every named plugin to
belong to some other group; then the named plugins are filtered out and the
config saved (without rollback on a failed save). -/
def groupRemove (groups : Groups) (groupName : String) (pluginNames : List String)
    (saveOk : Bool) : GroupCmdOutcome :=
  match mapLookup groups groupName with
  | none => ⟨some "group not found", groups⟩
  | some group =>
    if pluginNames.any (fun p => !group.plugins.contains p) then
      ⟨some "plugin is not in group", groups⟩
    else if groupName == "top" && pluginNames.any (fun p =>
        !groups.any (fun g => g.1 != "top" && g.2.plugins.contains p)) then
      ⟨some "cannot remove: not in any other group", groups⟩
    else
      let remaining := group.plugins.filter (fun p => !pluginNames.contains p)
      let updated := mapInsert groups groupName ⟨group.description, remaining⟩
      if saveOk then ⟨none, updated⟩ else ⟨some "save failed", updated⟩

/-! ## Concrete fixtures used by witnesses and counterexamples -/

/-- A runtime oracle that reads every byte slice as the given manifest. -/
def rmConst (m : Manifest) : Bytes → Option Manifest :=
  fun _ => some m

/-- A minimal manifest for the test fixture plugin. -/
def mfFixture : Manifest :=
  ⟨"fixture", "", [("fixture", ⟨"fixture", "", [⟨"check", "", []⟩]⟩)], .empty⟩

/-- A single-service DNS manifest with one `resolve` operation. -/
def mfDNS : Manifest :=
  ⟨"dns", "DNS resolution", [("dns", ⟨"dns", "DNS operations", [⟨"resolve", "Resolve hostname", ["hostname"]⟩]⟩)], .empty⟩

/-- The same DNS manifest with a config schema on which `json.Unmarshal`
fails. -/
def mfDNSBadSchema : Manifest :=
  ⟨"dns", "DNS resolution", [("dns", ⟨"dns", "DNS operations", [⟨"resolve", "Resolve hostname", ["hostname"]⟩]⟩)], .malformed⟩

/-- A two-service AWS-style manifest. -/
def mfAWS : Manifest :=
  ⟨"aws", "AWS inspection",
    [("iam", ⟨"iam", "IAM", [⟨"get_account_summary", "", []⟩]⟩),
     ("ec2", ⟨"ec2", "EC2", [⟨"describe_security_groups", "", []⟩]⟩)],
    .empty⟩

/-- A local plugin file as first written. -/
def fileV1 : LocalFile := ⟨"test.wasm", false, [1, 2, 3], 5⟩

/-- The file system after `test.wasm` was overwritten with new content. -/
def fsAfterOverwrite : FileSys :=
  fun path => if path = "/plugins/test.wasm" then some [9, 9, 9] else none

/-- A cache entry matching `fileV1` with the fixture manifest. -/
def ceFileV1 : CacheEntry := ⟨5, 3, mfFixture⟩

/-- An embedded manifest for the plugin name `dns`, distinct from the local
one. -/
def mfDNSEmb : Manifest := ⟨"dns", "embedded dns", [], .empty⟩

/-- The embedded `dns.wasm` (content `[1]`). -/
def embDnsFile : EmbedFile := ⟨"dns.wasm", false, [1]⟩

/-- The local `dns.wasm` (content `[2]`, modification time 7). -/
def locDnsFile : LocalFile := ⟨"dns.wasm", false, [2], 7⟩

/-- A runtime oracle distinguishing the embedded and the local bytes. -/
def rmTier : Bytes → Option Manifest :=
  fun b => if b = [1] then some mfDNSEmb else some mfDNS

/-- The plugin discovered from the embedded `dns.wasm` on a cache miss. -/
def pEmbDns : DiscoveredPlugin :=
  ⟨mfDNSEmb, fun _ => .ok [1], "embedded", "embedded://plugins/dns.wasm"⟩

/-- The plugin discovered from the local `dns.wasm` on a cache miss. -/
def pLocalDns : DiscoveredPlugin :=
  ⟨mfDNS, fun _ => .ok [2], "local", "/p/dns.wasm"⟩

/-- The cache after both tiers missed on `dns.wasm`. -/
def cacheAfterBoth : Cache :=
  [("embedded://plugins/dns.wasm", ⟨0, 1, mfDNSEmb⟩), ("/p/dns.wasm", ⟨7, 1, mfDNS⟩)]

/-- The cache after only the local tier missed on `dns.wasm`. -/
def cacheLocalOnly : Cache := [("/p/dns.wasm", ⟨7, 1, mfDNS⟩)]

/-- A resolution environment with only the exact local `dns.wasm`. -/
def envExact : LoadEnv := ⟨"/p", [locDnsFile], [], none⟩

/-- A resolution environment with nothing at all and no registry. -/
def envEmptyNoReg : LoadEnv := ⟨"/p", [], [], none⟩

/-! # Theorems -/

/-! ## Map lemmas -/

theorem mapLookup_insert_self {α : Type} (m : List (String × α)) (k : String) (v : α) :
    mapLookup (mapInsert m k v) k = some v := by
  induction m with
  | nil => simp [mapInsert, mapLookup]
  | cons hd tl ih =>
    by_cases h : hd.1 = k
    · simp [mapInsert, h, mapLookup]
    · simp [mapInsert, h, mapLookup, ih]

theorem mapLookup_insert_ne {α : Type} (m : List (String × α)) (k k₂ : String) (v : α)
    (h : k ≠ k₂) : mapLookup (mapInsert m k v) k₂ = mapLookup m k₂ := by
  induction m with
  | nil => simp [mapInsert, mapLookup, h]
  | cons hd tl ih =>
    by_cases hh : hd.1 = k
    · simp [mapInsert, hh, mapLookup, h]
    · simp [mapInsert, hh, mapLookup, ih]

/-! ## C3: the flag-name substitution round-trips -/

theorem isFieldChar_ne_hyphen {c : Char} (h : isFieldChar c = true) : c ≠ '-' := by
  intro hc
  subst hc
  simp [isFieldChar, Char.isLower, Char.isDigit] at h

/-- **C3.** For every property name made only of lowercase letters, digits and
underscores, mapping underscores to hyphens (flag registration,
`addFlagsForOperation`) and then hyphens back to underscores (config
reconstruction, `buildConfigFromFlags`) restores the name exactly. -/
theorem flag_name_roundtrip (s : String) (h : ∀ c ∈ s.data, isFieldChar c = true) :
    fieldNameOfFlag (flagNameOfField s) = s := by
  cases s with
  | mk data =>
    simp only [flagNameOfField, fieldNameOfFlag, replaceAllChar, List.map_map]
    congr 1
    have : ∀ c ∈ data, ((fun c => if c = '-' then '_' else c) ∘
        fun c => if c = '_' then '-' else c) c = id c := by
      intro c hc
      have hfc : isFieldChar c = true := h c hc
      by_cases hu : c = '_'
      · subst hu; rfl
      · have hh : c ≠ '-' := isFieldChar_ne_hyphen hfc
        simp [Function.comp, hu, hh]
    rw [List.map_congr_left this, List.map_id]

/-- Witness for C3 at the concrete field name `record_type`. -/
theorem flag_name_roundtrip_witness :
    fieldNameOfFlag (flagNameOfField "record_type") = "record_type" :=
  flag_name_roundtrip "record_type" (by decide)

/-! ## C4: the input config built from flags -/

/-- **C4, counterexample.**  The persistent flag `--output` is a flag the user
can supply, yet `buildConfigFromFlags` drops it from the config, where the
claim as stated requires it to appear: at flag set
`[output := "json" (changed)]` the code's config has no `output` key while the
claim's config maps it to `"json"`. -/
theorem buildConfig_drops_output_flag :
    mapLookup (buildConfigFromFlags [⟨"output", true, .str "json"⟩] "dns" "resolve")
      "output" = none
    ∧ mapLookup (claimedConfigFromFlags [⟨"output", true, .str "json"⟩] "dns" "resolve")
      "output" = some (.str "json") := by
  constructor <;> rfl

theorem buildConfig_lookup_insert_comm (flags : List Flag) (cfg : List (String × FlagValue))
    (k : String) (h : ∀ f ∈ flags, f.changed = true →
      internalConfigKey (fieldNameOfFlag f.name) = false → fieldNameOfFlag f.name ≠ k) :
    mapLookup (flags.foldl
      (fun config f =>
        if !f.changed then config
        else
          let jsonName := fieldNameOfFlag f.name
          if internalConfigKey jsonName then config
          else mapInsert config jsonName f.value) cfg) k = mapLookup cfg k := by
  induction flags generalizing cfg with
  | nil => rfl
  | cons f rest ih =>
    simp only [List.foldl_cons]
    by_cases hc : f.changed
    · by_cases hi : internalConfigKey (fieldNameOfFlag f.name)
      · simp only [hc, hi]
        simp only [Bool.not_true, Bool.false_eq_true, if_false, if_true]
        exact ih cfg (fun g hg => h g (List.mem_cons_of_mem f hg))
      · have hne : fieldNameOfFlag f.name ≠ k :=
          h f (List.mem_cons_self f rest) hc (by simpa using hi)
        simp only [hc, Bool.not_true, Bool.false_eq_true, if_false]
        rw [if_neg hi]
        rw [ih (mapInsert cfg (fieldNameOfFlag f.name) f.value)
          (fun g hg => h g (List.mem_cons_of_mem f hg))]
        exact mapLookup_insert_ne cfg (fieldNameOfFlag f.name) k f.value hne
    · simp only [hc, Bool.not_false, if_true]
      exact ih cfg (fun g hg => h g (List.mem_cons_of_mem f hg))

theorem buildConfig_fold_lookup (flags : List Flag) (cfg : List (String × FlagValue))
    (k : String) (hnodup : (flags.map (fun f => fieldNameOfFlag f.name)).Nodup) :
    mapLookup (flags.foldl
      (fun config f =>
        if !f.changed then config
        else
          let jsonName := fieldNameOfFlag f.name
          if internalConfigKey jsonName then config
          else mapInsert config jsonName f.value) cfg) k =
      (match flags.find?
          (fun f => f.changed && (fieldNameOfFlag f.name == k) && !internalConfigKey k) with
        | some f => some f.value
        | none => mapLookup cfg k) := by
  induction flags generalizing cfg with
  | nil => rfl
  | cons f rest ih =>
    have htail : (rest.map (fun f => fieldNameOfFlag f.name)).Nodup :=
      (List.nodup_cons.mp (by simpa using hnodup)).2
    have hhead : fieldNameOfFlag f.name ∉ rest.map (fun g => fieldNameOfFlag g.name) :=
      (List.nodup_cons.mp (by simpa using hnodup)).1
    simp only [List.foldl_cons, List.find?]
    by_cases hc : f.changed
    · by_cases hk : fieldNameOfFlag f.name = k
      · by_cases hi : internalConfigKey k
        · have hcond : (f.changed && (fieldNameOfFlag f.name == k) && !internalConfigKey k)
              = false := by
            simp [hi]
          rw [hcond]
          have hfi : internalConfigKey (fieldNameOfFlag f.name) = true := by rw [hk]; exact hi
          simp only [hc, Bool.not_true, Bool.false_eq_true, if_false, hfi, if_true]
          exact ih cfg htail
        · have hcond : (f.changed && (fieldNameOfFlag f.name == k) && !internalConfigKey k)
              = true := by
            simp [hc, hk, hi]
          rw [hcond]
          have hfi : internalConfigKey (fieldNameOfFlag f.name) = false := by
            rw [hk]; simpa using hi
          simp only [hc, Bool.not_true, Bool.false_eq_true, if_false, hfi,
            Bool.false_eq_true, if_false]
          rw [buildConfig_lookup_insert_comm rest
            (mapInsert cfg (fieldNameOfFlag f.name) f.value) k ?hne]
          · rw [hk, mapLookup_insert_self]
          case hne =>
            intro g hg _ _ hgk
            exact hhead (by
              have : fieldNameOfFlag g.name = fieldNameOfFlag f.name := by rw [hgk, hk]
              exact this ▸ List.mem_map_of_mem (fun x => fieldNameOfFlag x.name) hg)
      · have hcond : (f.changed && (fieldNameOfFlag f.name == k) && !internalConfigKey k)
            = false := by
          simp [hk]
        rw [hcond]
        by_cases hi : internalConfigKey (fieldNameOfFlag f.name)
        · simp only [hc, Bool.not_true, Bool.false_eq_true, if_false, hi, if_true]
          exact ih cfg htail
        · simp only [hc, Bool.not_true, Bool.false_eq_true, if_false, hi,
            Bool.false_eq_true, if_false]
          rw [ih (mapInsert cfg (fieldNameOfFlag f.name) f.value) htail]
          cases rest.find?
              (fun f => f.changed && (fieldNameOfFlag f.name == k) && !internalConfigKey k) with
          | none =>
            simp only
            exact mapLookup_insert_ne cfg (fieldNameOfFlag f.name) k f.value hk
          | some g => rfl
    · have hcond : (f.changed && (fieldNameOfFlag f.name == k) && !internalConfigKey k)
          = false := by simp [hc]
      rw [hcond]
      simp only [hc, Bool.not_false, if_true]
      exact ih cfg htail

/-- **C4, amended.**  For every flag set whose mapped field names are distinct
and never `service` / `operation` (true of every set this program registers),
the config handed to the plugin maps `service` and `operation` to the command
path, and any other key `k` to the value of the user-supplied (changed) flag
whose reverse-mapped name is `k` — except that the internal flags
`output`, `plugin-path` and `quiet` are skipped; unsupplied flags and internal
flags contribute nothing. -/
theorem buildConfig_characterization (flags : List Flag) (svc op k : String)
    (hnodup : (flags.map (fun f => fieldNameOfFlag f.name)).Nodup)
    (hso : ∀ f ∈ flags,
      fieldNameOfFlag f.name ≠ "service" ∧ fieldNameOfFlag f.name ≠ "operation") :
    mapLookup (buildConfigFromFlags flags svc op) k =
      (if k = "service" then some (.str svc)
       else if k = "operation" then some (.str op)
       else match flags.find?
          (fun f => f.changed && (fieldNameOfFlag f.name == k) && !internalConfigKey k) with
        | some f => some f.value
        | none => none) := by
  rw [buildConfigFromFlags, buildConfig_fold_lookup flags _ k hnodup]
  by_cases hs : k = "service"
  · subst hs
    have : flags.find?
        (fun f => f.changed && (fieldNameOfFlag f.name == "service")
          && !internalConfigKey "service") = none := by
      rw [List.find?_eq_none]
      intro f hf
      simp [(hso f hf).1]
    rw [this]
    simp [mapLookup]
  · by_cases ho : k = "operation"
    · subst ho
      have : flags.find?
          (fun f => f.changed && (fieldNameOfFlag f.name == "operation")
            && !internalConfigKey "operation") = none := by
        rw [List.find?_eq_none]
        intro f hf
        simp [(hso f hf).2]
      rw [this]
      simp [mapLookup, hs]
    · cases flags.find?
          (fun f => f.changed && (fieldNameOfFlag f.name == k) && !internalConfigKey k) with
      | none => simp [mapLookup, hs, ho, Ne.symm hs, Ne.symm ho]
      | some f => simp [hs, ho]

/-- Witness for the amended C4 at the spec's end-to-end example:
`dns resolve --hostname example.com` yields
`service=dns, operation=resolve, hostname=example.com`. -/
theorem buildConfig_characterization_witness :
    mapLookup (buildConfigFromFlags
      [⟨"hostname", true, .str "example.com"⟩, ⟨"record-type", false, .str "A"⟩]
      "dns" "resolve") "hostname" = some (.str "example.com") := by
  have h := buildConfig_characterization
    [⟨"hostname", true, .str "example.com"⟩, ⟨"record-type", false, .str "A"⟩]
    "dns" "resolve" "hostname" (by decide) (by decide)
  simpa using h

/-! ## C5: command-tree branching on the service count -/

/-- **C5, counterexample.**  The claim quantifies over every manifest, but a
manifest whose config schema does not unmarshal takes the error path of
`generatePluginCommand`: the one-service DNS manifest with a malformed schema
gets a childless plugin node, not its `resolve` operation as a direct
child. -/
theorem generatePluginCommand_malformed_schema :
    (generatePluginCommand mfDNSBadSchema).children = []
    ∧ mfDNSBadSchema.services.length = 1
    ∧ (generatePluginCommand mfDNSBadSchema).children ≠
        [createOperationCommand ⟨"resolve", "Resolve hostname", ["hostname"]⟩] := by
  refine ⟨rfl, rfl, ?_⟩
  intro h
  have h2 : ([] : List Cmd) =
      [createOperationCommand ⟨"resolve", "Resolve hostname", ["hostname"]⟩] :=
    (rfl : (generatePluginCommand mfDNSBadSchema).children = []).symm.trans h
  simp at h2

/-- **C5, amended.**  For every manifest whose config schema parses
successfully, the tree branches on the service count: with exactly one
service, that service's operations are attached as direct children of the
plugin node; with two or more services, each service becomes an intermediate
child node whose children are exactly that service's operations.  (When the
schema fails to parse, the plugin node is created childless and reports the
error on invocation.) -/
theorem generatePluginCommand_branches (m : Manifest) (s : ParsedSchema)
    (hok : parseConfigSchema m.configSchema = .ok s) :
    (∀ n sv, m.services = [(n, sv)] →
      generatePluginCommand m =
        .node m.name (sv.operations.map createOperationCommand))
    ∧ (2 ≤ m.services.length →
      generatePluginCommand m =
        .node m.name (m.services.map fun sv =>
          Cmd.node sv.1 (sv.2.operations.map createOperationCommand))) := by
  constructor
  · intro n sv hsv
    simp [generatePluginCommand, hok, hsv]
  · intro hlen
    have : m.services.length > 1 := hlen
    simp [generatePluginCommand, hok, this]

/-- Witness for the amended C5: the one-service DNS manifest yields `resolve`
as a direct child, and the two-service AWS manifest yields two intermediate
service nodes. -/
theorem generatePluginCommand_branches_witness :
    generatePluginCommand mfDNS =
      .node "dns" [.node "resolve" []]
    ∧ generatePluginCommand mfAWS =
      .node "aws"
        [.node "iam" [.node "get_account_summary" []],
         .node "ec2" [.node "describe_security_groups" []]] := by
  constructor
  · exact (generatePluginCommand_branches mfDNS ⟨[], []⟩ rfl).1
      "dns" ⟨"dns", "DNS operations", [⟨"resolve", "Resolve hostname", ["hostname"]⟩]⟩ rfl
  · exact (generatePluginCommand_branches mfAWS ⟨[], []⟩ rfl).2 (by decide)

/-! ## C2: the per-tier cache freshness rule -/

/-- **C2.**  During discovery, a local-tier candidate with a cache entry is
served from the cache — independently of the runtime oracle, which is then
never consulted — if and only if the entry's size equals the file's size and
its modification time equals the file's modification time; an embedded
candidate is served from the cache if and only if the sizes match, with no
modification-time check. -/
theorem cache_entry_used_iff :
    (∀ (pluginsDir : String) (e : LocalFile) (c : Cache) (cached : CacheEntry),
      localWasmCandidate e = true →
      mapLookup c (joinPath pluginsDir e.name) = some cached →
      ((cached.size = e.bytes.length ∧ cached.modTime = e.modTime) ↔
        ∀ rm, loadLocalPlugins rm pluginsDir [e] c =
          ([localHitPlugin pluginsDir e cached], false, c)))
    ∧ (∀ (e : EmbedFile) (c : Cache) (cached : CacheEntry),
      embedWasmCandidate e = true →
      mapLookup c (embeddedKey e.name) = some cached →
      (cached.size = e.bytes.length ↔
        ∀ rm, loadEmbeddedPlugins rm [e] c =
          ([embeddedHitPlugin e cached], false, c))) := by
  constructor
  · intro pluginsDir e c cached hcand hlook
    constructor
    · intro hmatch rm
      simp [loadLocalPlugins, localStep, hcand, hlook, hmatch]
    · intro hall
      by_contra hmatch
      have h := hall (fun _ => none)
      simp [loadLocalPlugins, localStep, hcand, hlook, hmatch, localMissStep,
        loadPluginBytes] at h
  · intro e c cached hcand hlook
    constructor
    · intro hmatch rm
      simp [loadEmbeddedPlugins, embeddedStep, hcand, hlook, hmatch]
    · intro hall
      by_contra hmatch
      have h := hall (fun _ => none)
      simp [loadEmbeddedPlugins, embeddedStep, hcand, hlook, hmatch, embeddedMissStep,
        loadPluginBytes] at h

/-- Witness for C2: a matching entry for `test.wasm` short-circuits the
runtime for any oracle. -/
theorem cache_entry_used_iff_witness :
    loadLocalPlugins (rmConst mfFixture) "/plugins" [fileV1]
      [("/plugins/test.wasm", ceFileV1)] =
      ([localHitPlugin "/plugins" fileV1 ceFileV1], false,
        [("/plugins/test.wasm", ceFileV1)]) :=
  ((cache_entry_used_iff.1 "/plugins" fileV1 [("/plugins/test.wasm", ceFileV1)] ceFileV1
    (by decide) (by decide)).mp (by decide)) (rmConst mfFixture)

/-! ## C1: byte-loader freshness (code bug)

On the cache-miss path (`loadPluginBytes`), the returned `Loader` closure is
`func() ([]byte, error) { return data, nil }` over the bytes read at discovery
time.  The repository's own test `TestLoader_OnDemandLoading` overwrites the
file after discovery and asserts the loader returns the new content, which
this path cannot satisfy; the cache-hit path (`os.ReadFile(path)`) can. -/

/-- **C1 (violated by the code).**  Discover `test.wasm` (content `[1,2,3]`)
on a cache miss, then overwrite the file with `[9,9,9]`: the discovered
plugin's byte loader still returns `[1,2,3]`, while the current on-disk
content — which the claim and `TestLoader_OnDemandLoading` require — is
`[9,9,9]`. -/
theorem loader_returns_stale_bytes_after_overwrite :
    ((loadLocalPlugins (rmConst mfFixture) "/plugins" [fileV1] []).1.map
      (fun p => p.loader fsAfterOverwrite)) = [Except.ok ([1, 2, 3] : Bytes)]
    ∧ fsAfterOverwrite (joinPath "/plugins" fileV1.name) = some [9, 9, 9]
    ∧ readFS fsAfterOverwrite (joinPath "/plugins" fileV1.name) =
        .ok ([9, 9, 9] : Bytes) := by
  refine ⟨rfl, by decide, ?_⟩
  simp [readFS, joinPath, fileV1, fsAfterOverwrite]

/-! ## C8 and C10: group mutations -/

theorem mapLookup_erase_self {α : Type} (m : List (String × α)) (k : String) :
    mapLookup (mapErase m k) k = none := by
  induction m with
  | nil => rfl
  | cons hd tl ih =>
    by_cases h : hd.1 = k
    · simpa [mapErase, List.filter_cons, h] using ih
    · simpa [mapErase, List.filter_cons, h, mapLookup] using ih

theorem mapLookup_erase_ne {α : Type} (m : List (String × α)) (k k₂ : String)
    (h : k ≠ k₂) : mapLookup (mapErase m k) k₂ = mapLookup m k₂ := by
  induction m with
  | nil => rfl
  | cons hd tl ih =>
    by_cases hh : hd.1 = k
    · have h2 : hd.1 ≠ k₂ := by rw [hh]; exact h
      simpa [mapErase, List.filter_cons, hh, mapLookup, h2, h] using ih
    · by_cases h2 : hd.1 = k₂
      · simp [mapErase, List.filter_cons, hh, mapLookup, h2, Ne.symm h]
      · simpa [mapErase, List.filter_cons, hh, mapLookup, h2] using ih

/-- **C10.**  When persisting the configuration fails, `group create` and
`group delete` roll their mutation back: the outcome is an error and the
in-memory group map is (pointwise) the map from before the operation. -/
theorem group_create_delete_rollback (groups : Groups) (name description : String) :
    (mapLookup groups name = none → name ≠ "" → name ∉ reservedCommands →
      (groupCreate groups name description false).err.isSome = true ∧
      ∀ k, mapLookup (groupCreate groups name description false).groups k =
        mapLookup groups k)
    ∧ (∀ g, name ≠ "top" → mapLookup groups name = some g →
      (groupDelete groups name false).err.isSome = true ∧
      ∀ k, mapLookup (groupDelete groups name false).groups k =
        mapLookup groups k) := by
  constructor
  · intro hnone hnempty hres
    have hout : groupCreate groups name description false =
        ⟨some "save failed", mapErase (mapInsert groups name ⟨description, []⟩) name⟩ := by
      simp [groupCreate, hnone, hnempty, hres]
    rw [hout]
    refine ⟨rfl, fun k => ?_⟩
    by_cases hk : k = name
    · subst hk
      rw [mapLookup_erase_self, hnone]
    · rw [mapLookup_erase_ne _ _ _ (fun h => hk h.symm),
        mapLookup_insert_ne _ _ _ _ (fun h => hk h.symm)]
  · intro g htop hsome
    have hout : groupDelete groups name false =
        ⟨some "save failed", mapInsert (mapErase groups name) name g⟩ := by
      simp [groupDelete, htop, hsome]
    rw [hout]
    refine ⟨rfl, fun k => ?_⟩
    by_cases hk : k = name
    · subst hk
      rw [mapLookup_insert_self, hsome]
    · rw [mapLookup_insert_ne _ _ _ _ (fun h => hk h.symm),
        mapLookup_erase_ne _ _ _ (fun h => hk h.symm)]

/-- Witness for C10: creating `web` and deleting `net` both fail on a failed
save and leave the configuration (pointwise) unchanged. -/
theorem group_create_delete_rollback_witness :
    ((groupCreate [("top", ⟨"", ["dns"]⟩)] "web" "" false).err.isSome = true
      ∧ mapLookup (groupCreate [("top", ⟨"", ["dns"]⟩)] "web" "" false).groups "top" =
          some ⟨"", ["dns"]⟩)
    ∧ ((groupDelete [("top", ⟨"", ["dns"]⟩), ("net", ⟨"", ["dns"]⟩)] "net" false).err.isSome
        = true
      ∧ mapLookup
          (groupDelete [("top", ⟨"", ["dns"]⟩), ("net", ⟨"", ["dns"]⟩)] "net" false).groups
          "net" = some ⟨"", ["dns"]⟩) := by
  have h1 := (group_create_delete_rollback [("top", ⟨"", ["dns"]⟩)] "web" "").1
    (by decide) (by decide) (by decide)
  have h2 := (group_create_delete_rollback
    [("top", ⟨"", ["dns"]⟩), ("net", ⟨"", ["dns"]⟩)] "net" "").2
    ⟨"", ["dns"]⟩ (by decide) (by decide)
  exact ⟨⟨h1.1, (h1.2 "top").trans (by decide)⟩, ⟨h2.1, (h2.2 "net").trans (by decide)⟩⟩

/-- **C8.**  Removing plugins from the reserved `top` group fails — leaving
the group configuration untouched — whenever one of them belongs to no other
group; when every one of them belongs to at least one other group (and the
save succeeds), the removal goes through and filters them out of `top`. -/
theorem groupRemove_top_guard (groups : Groups) (pluginNames : List String)
    (topG : GroupConfig) (hlook : mapLookup groups "top" = some topG)
    (hmem : ∀ p ∈ pluginNames, p ∈ topG.plugins) :
    ((∃ p ∈ pluginNames, ∀ g ∈ groups, g.1 = "top" ∨ p ∉ g.2.plugins) →
      ∀ saveOk, (groupRemove groups "top" pluginNames saveOk).err.isSome = true ∧
        (groupRemove groups "top" pluginNames saveOk).groups = groups)
    ∧ ((∀ p ∈ pluginNames, ∃ g ∈ groups, g.1 ≠ "top" ∧ p ∈ g.2.plugins) →
      (groupRemove groups "top" pluginNames true).err = none ∧
      (groupRemove groups "top" pluginNames true).groups =
        mapInsert groups "top"
          ⟨topG.description, topG.plugins.filter (fun q => !pluginNames.contains q)⟩) := by
  have hA : (pluginNames.any fun p => !topG.plugins.contains p) = false := by
    rw [List.any_eq_false]
    intro q hq
    simp [hmem q hq]
  constructor
  · rintro ⟨p, hp, hno⟩ saveOk
    have hB : (pluginNames.any fun q =>
        !groups.any fun g => g.1 != "top" && g.2.plugins.contains q) = true := by
      rw [List.any_eq_true]
      refine ⟨p, hp, ?_⟩
      rw [Bool.not_eq_true', List.any_eq_false]
      intro g hg
      rcases hno g hg with h | h
      · simp [h]
      · simp [h]
    have hout : groupRemove groups "top" pluginNames saveOk =
        ⟨some "cannot remove: not in any other group", groups⟩ := by
      unfold groupRemove
      rw [hlook]
      dsimp only
      rw [hA, hB]
      simp
    rw [hout]
    exact ⟨rfl, rfl⟩
  · intro hother
    have hB : (pluginNames.any fun q =>
        !groups.any fun g => g.1 != "top" && g.2.plugins.contains q) = false := by
      rw [List.any_eq_false]
      intro q hq
      rcases hother q hq with ⟨g, hg, hgt, hgc⟩
      have hgany : (groups.any fun g => g.1 != "top" && g.2.plugins.contains q) = true := by
        rw [List.any_eq_true]
        refine ⟨g, hg, ?_⟩
        simp only [Bool.and_eq_true, bne_iff_ne]
        exact ⟨hgt, by simp [hgc]⟩
      rw [hgany]
      decide
    have hout : groupRemove groups "top" pluginNames true =
        ⟨none, mapInsert groups "top"
          ⟨topG.description, topG.plugins.filter (fun q => !pluginNames.contains q)⟩⟩ := by
      unfold groupRemove
      rw [hlook]
      dsimp only
      rw [hA, hB]
      simp
    rw [hout]
    exact ⟨rfl, rfl⟩

/-- Witness for C8: with `dns` in `top` only, removal fails and the config is
untouched; once `dns` is also in `net`, removal from `top` succeeds. -/
theorem groupRemove_top_guard_witness :
    ((groupRemove [("top", ⟨"", ["dns"]⟩)] "top" ["dns"] true).err.isSome = true
      ∧ (groupRemove [("top", ⟨"", ["dns"]⟩)] "top" ["dns"] true).groups =
          [("top", ⟨"", ["dns"]⟩)])
    ∧ ((groupRemove [("top", ⟨"", ["dns"]⟩), ("net", ⟨"", ["dns"]⟩)]
          "top" ["dns"] true).err = none) := by
  have h1 := (groupRemove_top_guard [("top", ⟨"", ["dns"]⟩)] ["dns"] ⟨"", ["dns"]⟩
    (by decide) (by decide)).1 ⟨"dns", by decide, by decide⟩ true
  have h2 := (groupRemove_top_guard [("top", ⟨"", ["dns"]⟩), ("net", ⟨"", ["dns"]⟩)]
    ["dns"] ⟨"", ["dns"]⟩ (by decide) (by decide)).2
    (by
      intro p hp
      refine ⟨("net", ⟨"", ["dns"]⟩), by decide, by decide, ?_⟩
      simp at hp
      simp [hp])
  exact ⟨⟨h1.1, h1.2⟩, h2.1⟩

/-! ## Case analyses of the per-entry discovery steps -/

theorem localStep_split (rm : Bytes → Option Manifest) (dir : String)
    (st : List DiscoveredPlugin × Bool × Cache) (e : LocalFile) :
    (localStep rm dir st e = st)
    ∨ (∃ cached, mapLookup st.2.2 (joinPath dir e.name) = some cached ∧
        cached.size = e.bytes.length ∧ cached.modTime = e.modTime ∧
        localStep rm dir st e = (st.1 ++ [localHitPlugin dir e cached], st.2.1, st.2.2))
    ∨ (∃ m, rm e.bytes = some m ∧
        (mapLookup st.2.2 (joinPath dir e.name) = none ∨
          ∃ cached, mapLookup st.2.2 (joinPath dir e.name) = some cached ∧
            ¬(cached.size = e.bytes.length ∧ cached.modTime = e.modTime)) ∧
        localStep rm dir st e =
          (st.1 ++ [⟨m, fun _ => Except.ok e.bytes, "local", joinPath dir e.name⟩], true,
            mapInsert st.2.2 (joinPath dir e.name) ⟨e.modTime, e.bytes.length, m⟩)) := by
  obtain ⟨ps, u, c⟩ := st
  by_cases hcand : localWasmCandidate e
  · cases hlook : mapLookup c (joinPath dir e.name) with
    | some cached =>
      by_cases hcond : cached.size = e.bytes.length ∧ cached.modTime = e.modTime
      · exact Or.inr (Or.inl ⟨cached, rfl, hcond.1, hcond.2,
          by simp [localStep, hcand, hlook, hcond]⟩)
      · cases hrm : rm e.bytes with
        | none =>
          exact Or.inl (by
            simp [localStep, hcand, hlook, hcond, localMissStep, loadPluginBytes, hrm])
        | some m =>
          exact Or.inr (Or.inr ⟨m, rfl, Or.inr ⟨cached, rfl, hcond⟩,
            by simp [localStep, hcand, hlook, hcond, localMissStep, loadPluginBytes, hrm]⟩)
    | none =>
      cases hrm : rm e.bytes with
      | none =>
        exact Or.inl (by
          simp [localStep, hcand, hlook, localMissStep, loadPluginBytes, hrm])
      | some m =>
        exact Or.inr (Or.inr ⟨m, rfl, Or.inl rfl,
          by simp [localStep, hcand, hlook, localMissStep, loadPluginBytes, hrm]⟩)
  · exact Or.inl (by simp [localStep, hcand])

theorem embeddedStep_split (rm : Bytes → Option Manifest)
    (st : List DiscoveredPlugin × Bool × Cache) (e : EmbedFile) :
    (embeddedStep rm st e = st)
    ∨ (∃ cached, mapLookup st.2.2 (embeddedKey e.name) = some cached ∧
        cached.size = e.bytes.length ∧
        embeddedStep rm st e = (st.1 ++ [embeddedHitPlugin e cached], st.2.1, st.2.2))
    ∨ (∃ m, rm e.bytes = some m ∧
        (mapLookup st.2.2 (embeddedKey e.name) = none ∨
          ∃ cached, mapLookup st.2.2 (embeddedKey e.name) = some cached ∧
            ¬ cached.size = e.bytes.length) ∧
        embeddedStep rm st e =
          (st.1 ++ [⟨m, fun _ => Except.ok e.bytes, "embedded", embeddedKey e.name⟩], true,
            mapInsert st.2.2 (embeddedKey e.name) ⟨0, e.bytes.length, m⟩)) := by
  obtain ⟨ps, u, c⟩ := st
  by_cases hcand : embedWasmCandidate e
  · cases hlook : mapLookup c (embeddedKey e.name) with
    | some cached =>
      by_cases hcond : cached.size = e.bytes.length
      · exact Or.inr (Or.inl ⟨cached, rfl, hcond,
          by simp [embeddedStep, hcand, hlook, hcond]⟩)
      · cases hrm : rm e.bytes with
        | none =>
          exact Or.inl (by
            simp [embeddedStep, hcand, hlook, hcond, embeddedMissStep, loadPluginBytes, hrm])
        | some m =>
          exact Or.inr (Or.inr ⟨m, rfl, Or.inr ⟨cached, rfl, hcond⟩,
            by simp [embeddedStep, hcand, hlook, hcond, embeddedMissStep, loadPluginBytes, hrm]⟩)
    | none =>
      cases hrm : rm e.bytes with
      | none =>
        exact Or.inl (by
          simp [embeddedStep, hcand, hlook, embeddedMissStep, loadPluginBytes, hrm])
      | some m =>
        exact Or.inr (Or.inr ⟨m, rfl, Or.inl rfl,
          by simp [embeddedStep, hcand, hlook, embeddedMissStep, loadPluginBytes, hrm]⟩)
  · exact Or.inl (by simp [embeddedStep, hcand])

/-! ## C6: the local tier overrides the bundled tier in the name-keyed merge -/

theorem mapLookup_mem_values {α : Type} (m : List (String × α)) (n : String) (p : α)
    (h : mapLookup m n = some p) : p ∈ m.map Prod.snd := by
  induction m with
  | nil => simp [mapLookup] at h
  | cons hd tl ih =>
    by_cases hh : hd.1 = n
    · simp [mapLookup, hh] at h
      simp [← h]
    · simp [mapLookup, hh] at h
      simp [ih h]

theorem mapLookup_mem_keys {α : Type} (m : List (String × α)) (n : String) (p : α)
    (h : mapLookup m n = some p) : n ∈ m.map Prod.fst := by
  induction m with
  | nil => simp [mapLookup] at h
  | cons hd tl ih =>
    by_cases hh : hd.1 = n
    · simp [hh]
    · simp [mapLookup, hh] at h
      simp [ih h]

theorem mem_keys_mapInsert {α : Type} (m : List (String × α)) (k x : String) (v : α)
    (h : x ∈ (mapInsert m k v).map Prod.fst) : x ∈ m.map Prod.fst ∨ x = k := by
  induction m with
  | nil => simpa [mapInsert] using h
  | cons hd tl ih =>
    by_cases hh : hd.1 = k
    · rw [show mapInsert (hd :: tl) k v = (k, v) :: tl from by simp [mapInsert, hh]] at h
      rw [List.map_cons, List.mem_cons] at h
      rcases h with h | h
      · exact Or.inr h
      · exact Or.inl (by rw [List.map_cons, List.mem_cons]; exact Or.inr h)
    · rw [show mapInsert (hd :: tl) k v = hd :: mapInsert tl k v
          from by simp [mapInsert, hh]] at h
      rw [List.map_cons, List.mem_cons] at h
      rcases h with h | h
      · exact Or.inl (by rw [List.map_cons, List.mem_cons]; exact Or.inl h)
      · rcases ih h with h2 | h2
        · exact Or.inl (by rw [List.map_cons, List.mem_cons]; exact Or.inr h2)
        · exact Or.inr h2

theorem nodup_keys_mapInsert {α : Type} (m : List (String × α)) (k : String) (v : α)
    (h : (m.map Prod.fst).Nodup) : ((mapInsert m k v).map Prod.fst).Nodup := by
  induction m with
  | nil => simp [mapInsert]
  | cons hd tl ih =>
    rw [List.map_cons, List.nodup_cons] at h
    by_cases hh : hd.1 = k
    · simp only [mapInsert, hh, if_true, List.map_cons, List.nodup_cons]
      exact ⟨by rw [← hh]; exact h.1, h.2⟩
    · simp only [mapInsert, hh, if_false, List.map_cons, List.nodup_cons]
      refine ⟨?_, ih h.2⟩
      intro hmem
      rcases mem_keys_mapInsert tl k hd.1 v hmem with h2 | h2
      · exact h.1 h2
      · exact hh h2

theorem pluginsByName_keys_nodup (ps : List DiscoveredPlugin)
    (m : List (String × DiscoveredPlugin)) (h : (m.map Prod.fst).Nodup) :
    ((pluginsByName ps m).map Prod.fst).Nodup := by
  induction ps generalizing m with
  | nil => exact h
  | cons p rest ih =>
    exact ih (mapInsert m p.manifest.name p) (nodup_keys_mapInsert m p.manifest.name p h)

theorem pluginsByName_lookup_of_not_mem (ps : List DiscoveredPlugin)
    (m : List (String × DiscoveredPlugin)) (n : String)
    (h : ∀ p ∈ ps, p.manifest.name ≠ n) :
    mapLookup (pluginsByName ps m) n = mapLookup m n := by
  induction ps generalizing m with
  | nil => rfl
  | cons p rest ih =>
    have : mapLookup (pluginsByName rest (mapInsert m p.manifest.name p)) n =
        mapLookup (mapInsert m p.manifest.name p) n :=
      ih (mapInsert m p.manifest.name p) (fun q hq => h q (List.mem_cons_of_mem p hq))
    rw [pluginsByName, List.foldl_cons]
    rw [show (rest.foldl (fun acc q => mapInsert acc q.manifest.name q)
        (mapInsert m p.manifest.name p)) =
      pluginsByName rest (mapInsert m p.manifest.name p) from rfl]
    rw [this]
    exact mapLookup_insert_ne m p.manifest.name n p (h p (List.mem_cons_self p rest))

theorem pluginsByName_lookup_of_mem (ps : List DiscoveredPlugin)
    (m : List (String × DiscoveredPlugin)) (n : String)
    (h : ∃ p ∈ ps, p.manifest.name = n) :
    ∃ p, mapLookup (pluginsByName ps m) n = some p ∧ p ∈ ps ∧ p.manifest.name = n := by
  induction ps generalizing m with
  | nil => simp at h
  | cons p rest ih =>
    by_cases hr : ∃ q ∈ rest, q.manifest.name = n
    · obtain ⟨q, hlook, hmem, hname⟩ := ih (mapInsert m p.manifest.name p) hr
      exact ⟨q, hlook, List.mem_cons_of_mem p hmem, hname⟩
    · have hp : p.manifest.name = n := by
        rcases h with ⟨q, hq, hqn⟩
        rcases List.mem_cons.mp hq with rfl | hq2
        · exact hqn
        · exact absurd ⟨q, hq2, hqn⟩ hr
      refine ⟨p, ?_, List.mem_cons_self p rest, hp⟩
      rw [pluginsByName, List.foldl_cons]
      rw [show (rest.foldl (fun acc q => mapInsert acc q.manifest.name q)
          (mapInsert m p.manifest.name p)) =
        pluginsByName rest (mapInsert m p.manifest.name p) from rfl]
      rw [pluginsByName_lookup_of_not_mem rest _ n
        (fun q hq hqn => hr ⟨q, hq, hqn⟩)]
      rw [hp, mapLookup_insert_self]

theorem loadLocal_fold_sources (rm : Bytes → Option Manifest) (dir : String)
    (es : List LocalFile) :
    ∀ st : List DiscoveredPlugin × Bool × Cache, (∀ p ∈ st.1, p.source = "local") →
      ∀ p ∈ (es.foldl (localStep rm dir) st).1, p.source = "local" := by
  induction es with
  | nil => exact fun st h => h
  | cons e rest ih =>
    intro st h
    rw [List.foldl_cons]
    rcases localStep_split rm dir st e with hc | ⟨cached, _, _, _, hc⟩ | ⟨m, _, _, hc⟩
    · rw [hc]; exact ih st h
    · rw [hc]
      refine ih _ ?_
      intro p hp
      rcases List.mem_append.mp hp with hp | hp
      · exact h p hp
      · rcases List.mem_singleton.mp hp with rfl
        rfl
    · rw [hc]
      refine ih _ ?_
      intro p hp
      rcases List.mem_append.mp hp with hp | hp
      · exact h p hp
      · rcases List.mem_singleton.mp hp with rfl
        rfl

/-- **C6.**  If a plugin name is discovered both by the embedded tier and by
the local tier in one `DiscoverAll` pass, the result holds exactly one plugin
under that name, and it is the local tier's plugin, tagged `local`. -/
theorem discoverAll_local_overrides_embedded
    (rm : Bytes → Option Manifest) (dir : String) (embedded : List EmbedFile)
    (les : List LocalFile) (cache₀ : Cache)
    (pm : List (String × DiscoveredPlugin)) (saves : List Cache) (n : String)
    (hres : DiscoverAll rm dir embedded (.ok les) cache₀ = .ok (pm, saves))
    (_hE : ∃ p ∈ (loadEmbeddedPlugins rm embedded cache₀).1, p.manifest.name = n)
    (hL : ∃ p ∈ (loadLocalPlugins rm dir les
      (loadEmbeddedPlugins rm embedded cache₀).2.2).1, p.manifest.name = n) :
    ∃ p, mapLookup pm n = some p ∧
      p ∈ (loadLocalPlugins rm dir les (loadEmbeddedPlugins rm embedded cache₀).2.2).1 ∧
      p.source = "local" ∧ p.manifest.name = n ∧
      (pm.map Prod.fst).count n = 1 := by
  have hpm : pm = pluginsByName
      (loadLocalPlugins rm dir les (loadEmbeddedPlugins rm embedded cache₀).2.2).1
      (pluginsByName (loadEmbeddedPlugins rm embedded cache₀).1 []) := by
    have h := hres
    simp only [DiscoverAll, Except.ok.injEq, Prod.mk.injEq] at h
    exact h.1.symm
  obtain ⟨p, hlook, hmem, hname⟩ := pluginsByName_lookup_of_mem
    (loadLocalPlugins rm dir les (loadEmbeddedPlugins rm embedded cache₀).2.2).1
    (pluginsByName (loadEmbeddedPlugins rm embedded cache₀).1 []) n hL
  refine ⟨p, by rw [hpm]; exact hlook, hmem, ?_, hname, ?_⟩
  · exact loadLocal_fold_sources rm dir les ([], false,
      (loadEmbeddedPlugins rm embedded cache₀).2.2) (by intro q hq; simp at hq) p hmem
  · have hnodup : ((pluginsByName
        (loadLocalPlugins rm dir les (loadEmbeddedPlugins rm embedded cache₀).2.2).1
        (pluginsByName (loadEmbeddedPlugins rm embedded cache₀).1 [])).map
          Prod.fst).Nodup := by
      refine pluginsByName_keys_nodup _ _ ?_
      refine pluginsByName_keys_nodup _ _ ?_
      simp
    have hkmem : n ∈ (pm.map Prod.fst) := mapLookup_mem_keys pm n p (by rw [hpm]; exact hlook)
    rw [hpm] at hkmem ⊢
    exact List.count_eq_one_of_mem hnodup hkmem

/-- Witness for C6: `dns.wasm` present in both tiers resolves to the local
plugin. -/
theorem discoverAll_local_overrides_embedded_witness :
    DiscoverAll rmTier "/p" [embDnsFile] (.ok [locDnsFile]) [] =
      .ok ([("dns", pLocalDns)], [cacheAfterBoth])
    ∧ (mapLookup [("dns", pLocalDns)] "dns").map (fun p => p.source) = some "local" := by
  refine ⟨rfl, ?_⟩
  obtain ⟨p, hlook, _, hsrc, _, _⟩ := discoverAll_local_overrides_embedded
    rmTier "/p" [embDnsFile] [locDnsFile] [] [("dns", pLocalDns)] [cacheAfterBoth] "dns"
    rfl
    ⟨pEmbDns, by
      rw [show (loadEmbeddedPlugins rmTier [embDnsFile] []).1 = [pEmbDns] from rfl]
      exact ⟨List.mem_singleton_self _, rfl⟩⟩
    ⟨pLocalDns, by
      rw [show (loadLocalPlugins rmTier "/p" [locDnsFile]
        (loadEmbeddedPlugins rmTier [embDnsFile] []).2.2).1 = [pLocalDns] from rfl]
      exact ⟨List.mem_singleton_self _, rfl⟩⟩
  rw [hlook]
  simp [hsrc]

/-! ## C7: `LoadByName` resolution order -/

theorem charListLe_refl : ∀ as, charListLe as as = true := by
  intro as
  induction as with
  | nil => rfl
  | cons a as ih => simp [charListLe, ih]

theorem charListLe_total : ∀ as bs, charListLe as bs = true ∨ charListLe bs as = true := by
  intro as
  induction as with
  | nil => intro bs; exact Or.inl rfl
  | cons a as ih =>
    intro bs
    cases bs with
    | nil => exact Or.inr rfl
    | cons b bs =>
      rcases Nat.lt_trichotomy a.toNat b.toNat with h | h | h
      · exact Or.inl (by simp [charListLe, h])
      · have h1 : ¬ a.toNat < b.toNat := by omega
        have h2 : ¬ b.toNat < a.toNat := by omega
        rcases ih bs with hh | hh
        · exact Or.inl (by simp [charListLe, h1, h2, hh])
        · exact Or.inr (by simp [charListLe, h1, h2, hh])
      · exact Or.inr (by simp [charListLe, h])

theorem charListLe_head_split {a b : Char} {as bs : List Char}
    (h : charListLe (a :: as) (b :: bs) = true) :
    a.toNat < b.toNat ∨ (a.toNat = b.toNat ∧ charListLe as bs = true) := by
  by_cases h1 : a.toNat < b.toNat
  · exact Or.inl h1
  · by_cases h2 : b.toNat < a.toNat
    · simp [charListLe, h1, h2] at h
    · exact Or.inr ⟨by omega, by simpa [charListLe, h1, h2] using h⟩

theorem charListLe_trans :
    ∀ as bs cs, charListLe as bs = true → charListLe bs cs = true →
      charListLe as cs = true := by
  intro as
  induction as with
  | nil => intro bs cs _ _; rfl
  | cons a as ih =>
    intro bs cs hab hbc
    cases bs with
    | nil => simp [charListLe] at hab
    | cons b bs =>
      cases cs with
      | nil => simp [charListLe] at hbc
      | cons c cs =>
        rcases charListLe_head_split hab with h1 | ⟨h1, hab2⟩ <;>
          rcases charListLe_head_split hbc with h2 | ⟨h2, hbc2⟩
        · have h3 : a.toNat < c.toNat := by omega
          simp [charListLe, h3]
        · have h3 : a.toNat < c.toNat := by omega
          simp [charListLe, h3]
        · have h3 : a.toNat < c.toNat := by omega
          simp [charListLe, h3]
        · have h3 : ¬ a.toNat < c.toNat := by omega
          have h4 : ¬ c.toNat < a.toNat := by omega
          simp [charListLe, h3, h4, ih bs cs hab2 hbc2]

theorem strLe_refl (a : String) : strLe a a = true :=
  charListLe_refl a.data

theorem strLe_total (a b : String) : strLe a b = true ∨ strLe b a = true :=
  charListLe_total a.data b.data

theorem strLe_trans (a b c : String) (h1 : strLe a b = true) (h2 : strLe b c = true) :
    strLe a c = true :=
  charListLe_trans a.data b.data c.data h1 h2

theorem insertSorted_eq_of_le {x z : String} (zs : List String) (h : strLe x z = true) :
    insertSorted x (z :: zs) = x :: z :: zs := by
  simp [insertSorted, h]

theorem insertSorted_eq_of_not_le {x z : String} (zs : List String)
    (h : ¬ strLe x z = true) : insertSorted x (z :: zs) = z :: insertSorted x zs := by
  simp [insertSorted, h]

theorem insertSorted_mem (x y : String) :
    ∀ l, y ∈ insertSorted x l ↔ y = x ∨ y ∈ l := by
  intro l
  induction l with
  | nil => simp [insertSorted]
  | cons z zs ih =>
    by_cases h : strLe x z = true
    · rw [insertSorted_eq_of_le zs h]
      simp [List.mem_cons]
    · rw [insertSorted_eq_of_not_le zs h]
      simp only [List.mem_cons, ih]
      tauto

theorem insertSorted_ne_nil (x : String) (l : List String) : insertSorted x l ≠ [] := by
  cases l with
  | nil => simp [insertSorted]
  | cons z zs =>
    by_cases h : strLe x z = true
    · rw [insertSorted_eq_of_le zs h]; simp
    · rw [insertSorted_eq_of_not_le zs h]; simp

theorem insertSorted_pairwise (x : String) :
    ∀ l, l.Pairwise (fun a b => strLe a b = true) →
      (insertSorted x l).Pairwise (fun a b => strLe a b = true) := by
  intro l
  induction l with
  | nil => intro _; simp [insertSorted]
  | cons z zs ih =>
    intro hp
    rw [List.pairwise_cons] at hp
    by_cases h : strLe x z = true
    · rw [insertSorted_eq_of_le zs h]
      rw [List.pairwise_cons]
      refine ⟨?_, List.pairwise_cons.mpr hp⟩
      intro y hy
      rcases List.mem_cons.mp hy with rfl | hy2
      · exact h
      · exact strLe_trans x z y h (hp.1 y hy2)
    · rw [insertSorted_eq_of_not_le zs h]
      rw [List.pairwise_cons]
      refine ⟨?_, ih hp.2⟩
      intro y hy
      rcases (insertSorted_mem x y zs).mp hy with hyx | hy2
      · rw [hyx]
        rcases strLe_total x z with hh | hh
        · exact absurd hh h
        · exact hh
      · exact hp.1 y hy2

theorem sortStrings_pairwise (l : List String) :
    (sortStrings l).Pairwise (fun a b => strLe a b = true) := by
  induction l with
  | nil => simp [sortStrings]
  | cons x xs ih => exact insertSorted_pairwise x (sortStrings xs) ih

theorem sortStrings_mem (y : String) : ∀ l, y ∈ sortStrings l ↔ y ∈ l := by
  intro l
  induction l with
  | nil => simp [sortStrings]
  | cons a as ih =>
    rw [show sortStrings (a :: as) = insertSorted a (sortStrings as) from rfl]
    rw [insertSorted_mem, ih, List.mem_cons]

theorem pairwise_getLast_max :
    ∀ (l : List String) (M : String), l.Pairwise (fun a b => strLe a b = true) →
      l.getLast? = some M → ∀ x ∈ l, strLe x M = true := by
  intro l
  induction l with
  | nil => intro M _ h; simp at h
  | cons y ys ih =>
    intro M hp hlast x hx
    cases ys with
    | nil =>
      simp at hlast
      rcases List.mem_singleton.mp hx with rfl
      rw [← hlast]
      exact strLe_refl x
    | cons z zs =>
      rw [List.getLast?_cons_cons] at hlast
      rw [List.pairwise_cons] at hp
      rcases List.mem_cons.mp hx with rfl | hx2
      · exact hp.1 M (List.mem_of_mem_getLast? hlast)
      · exact ih M hp.2 hlast x hx2

theorem sortStrings_getLast_max (l : List String) (hne : l ≠ []) :
    ∃ M, (sortStrings l).getLast? = some M ∧ M ∈ l ∧
      ∀ x ∈ l, strLe x M = true := by
  have hsne : sortStrings l ≠ [] := by
    cases l with
    | nil => exact absurd rfl hne
    | cons x xs => exact insertSorted_ne_nil x (sortStrings xs)
  obtain ⟨M, hM⟩ := Option.isSome_iff_exists.mp (List.getLast?_isSome.mpr hsne)
  refine ⟨M, hM, ?_, ?_⟩
  · exact (sortStrings_mem M l).mp (List.mem_of_mem_getLast? hM)
  · intro x hx
    exact pairwise_getLast_max (sortStrings l) M (sortStrings_pairwise l) hM x
      ((sortStrings_mem x l).mpr hx)

/-- **C7.**  `LoadByName` resolves in tier order and returns the first hit:
(1) the exact local `<name>.wasm`; (2) otherwise the lexicographically
greatest versioned local `<name>@<version>.wasm`; (3) otherwise the bundled
`<name>.wasm`; (4) otherwise the registry, but only when a registry resolver
is configured; when every tier misses, a not-found error. -/
theorem loadByName_resolution (rm : Bytes → Option Manifest) (env : LoadEnv)
    (name : String) :
    ((∃ e ∈ env.localEntries, e.name = name ++ ".wasm") →
      LoadByName rm env name = loadLocalFile rm env (name ++ ".wasm"))
    ∧ ((¬ ∃ e ∈ env.localEntries, e.name = name ++ ".wasm") →
      versionedMatches env name ≠ [] →
      ∃ M, LoadByName rm env name = loadLocalFile rm env M ∧
        M ∈ versionedMatches env name ∧
        ∀ x ∈ versionedMatches env name, strLe x M = true)
    ∧ ((¬ ∃ e ∈ env.localEntries, e.name = name ++ ".wasm") →
      versionedMatches env name = [] →
      (∃ e ∈ env.embedded, e.name = name ++ ".wasm") →
      LoadByName rm env name = loadEmbeddedFile rm env (name ++ ".wasm"))
    ∧ (∀ oci, (¬ ∃ e ∈ env.localEntries, e.name = name ++ ".wasm") →
      versionedMatches env name = [] →
      (¬ ∃ e ∈ env.embedded, e.name = name ++ ".wasm") →
      env.stack = some oci →
      LoadByName rm env name = loadFromOCI rm oci name)
    ∧ ((¬ ∃ e ∈ env.localEntries, e.name = name ++ ".wasm") →
      versionedMatches env name = [] →
      (¬ ∃ e ∈ env.embedded, e.name = name ++ ".wasm") →
      env.stack = none →
      LoadByName rm env name = .error ("plugin " ++ name ++ " not found")) := by
  refine ⟨?_, ?_, ?_, ?_, ?_⟩
  · rintro ⟨e, he, hen⟩
    have hany : (env.localEntries.any fun e => e.name = name ++ ".wasm") = true := by
      rw [List.any_eq_true]
      exact ⟨e, he, by simp [hen]⟩
    simp [LoadByName, hany]
  · intro hno hne
    have hany : (env.localEntries.any fun e => e.name = name ++ ".wasm") = false := by
      rw [List.any_eq_false]
      intro e he
      simp only [decide_eq_true_eq]
      exact fun hc => hno ⟨e, he, hc⟩
    obtain ⟨M, hM, hmem, hmax⟩ := sortStrings_getLast_max (versionedMatches env name) hne
    refine ⟨M, ?_, hmem, hmax⟩
    simp only [LoadByName, hany, Bool.false_eq_true, if_false]
    rw [hM]
  · rintro hno hveq ⟨e, he, hen⟩
    have hany : (env.localEntries.any fun e => e.name = name ++ ".wasm") = false := by
      rw [List.any_eq_false]
      intro x hx
      simp only [decide_eq_true_eq]
      exact fun hc => hno ⟨x, hx, hc⟩
    have hany2 : (env.embedded.any fun e => e.name = name ++ ".wasm") = true := by
      rw [List.any_eq_true]
      exact ⟨e, he, by simp [hen]⟩
    simp only [LoadByName, hany, Bool.false_eq_true, if_false, hveq]
    rw [show sortStrings [] = [] from rfl]
    simp [hany2]
  · intro oci hno hveq hnoemb hstack
    have hany : (env.localEntries.any fun e => e.name = name ++ ".wasm") = false := by
      rw [List.any_eq_false]
      intro x hx
      simp only [decide_eq_true_eq]
      exact fun hc => hno ⟨x, hx, hc⟩
    have hany2 : (env.embedded.any fun e => e.name = name ++ ".wasm") = false := by
      rw [List.any_eq_false]
      intro x hx
      simp only [decide_eq_true_eq]
      exact fun hc => hnoemb ⟨x, hx, hc⟩
    simp only [LoadByName, hany, Bool.false_eq_true, if_false, hveq]
    rw [show sortStrings [] = [] from rfl]
    simp [hany2, hstack]
  · intro hno hveq hnoemb hstack
    have hany : (env.localEntries.any fun e => e.name = name ++ ".wasm") = false := by
      rw [List.any_eq_false]
      intro x hx
      simp only [decide_eq_true_eq]
      exact fun hc => hno ⟨x, hx, hc⟩
    have hany2 : (env.embedded.any fun e => e.name = name ++ ".wasm") = false := by
      rw [List.any_eq_false]
      intro x hx
      simp only [decide_eq_true_eq]
      exact fun hc => hnoemb ⟨x, hx, hc⟩
    simp only [LoadByName, hany, Bool.false_eq_true, if_false, hveq]
    rw [show sortStrings [] = [] from rfl]
    simp [hany2, hstack]

/-- Witness for C7: the exact local file wins, and with every tier missing
and no registry configured the result is the not-found error. -/
theorem loadByName_resolution_witness :
    LoadByName (rmConst mfDNS) envExact "dns" =
      loadLocalFile (rmConst mfDNS) envExact "dns.wasm"
    ∧ LoadByName (rmConst mfDNS) envEmptyNoReg "dns" =
      .error "plugin dns not found" := by
  constructor
  · exact (loadByName_resolution (rmConst mfDNS) envExact "dns").1
      ⟨locDnsFile, by decide, by decide⟩
  · have h := (loadByName_resolution (rmConst mfDNS) envEmptyNoReg "dns").2.2.2.2
      (by rintro ⟨e, he, _⟩; simp [envEmptyNoReg] at he) (by decide)
      (by rintro ⟨e, he, _⟩; simp [envEmptyNoReg] at he) rfl
    simpa using h

/-! ## C9: the cache is written at most once, and only when it changed -/

theorem joinPath_inj (dir a b : String) (h : joinPath dir a = joinPath dir b) : a = b := by
  have hd : (dir ++ "/").data ++ a.data = (dir ++ "/").data ++ b.data :=
    congrArg String.data h
  have h2 := List.append_cancel_left hd
  cases a; cases b
  simp only at h2
  rw [h2]

theorem embeddedKey_inj (a b : String) (h : embeddedKey a = embeddedKey b) : a = b := by
  have hd : ("embedded://plugins/" : String).data ++ a.data =
      ("embedded://plugins/" : String).data ++ b.data := congrArg String.data h
  have h2 := List.append_cancel_left hd
  cases a; cases b
  simp only at h2
  rw [h2]

theorem localFold_untouched (rm : Bytes → Option Manifest) (dir : String) :
    ∀ (es : List LocalFile) (st : List DiscoveredPlugin × Bool × Cache) (k : String),
      (∀ e ∈ es, joinPath dir e.name ≠ k) →
      mapLookup (es.foldl (localStep rm dir) st).2.2 k = mapLookup st.2.2 k := by
  intro es
  induction es with
  | nil => intro st k _; rfl
  | cons e rest ih =>
    intro st k hk
    rw [List.foldl_cons]
    have htail : ∀ x ∈ rest, joinPath dir x.name ≠ k :=
      fun x hx => hk x (List.mem_cons_of_mem e hx)
    rcases localStep_split rm dir st e with hc | ⟨cached, _, _, _, hc⟩ | ⟨m, _, _, hc⟩
    · rw [hc]; exact ih st k htail
    · rw [hc, ih _ k htail]
    · rw [hc, ih _ k htail]
      exact mapLookup_insert_ne st.2.2 (joinPath dir e.name) k _
        (hk e (List.mem_cons_self e rest))

theorem localFold_u_mono (rm : Bytes → Option Manifest) (dir : String) :
    ∀ (es : List LocalFile) (st : List DiscoveredPlugin × Bool × Cache),
      st.2.1 = true → (es.foldl (localStep rm dir) st).2.1 = true := by
  intro es
  induction es with
  | nil => intro st h; exact h
  | cons e rest ih =>
    intro st h
    rw [List.foldl_cons]
    rcases localStep_split rm dir st e with hc | ⟨cached, _, _, _, hc⟩ | ⟨m, _, _, hc⟩
    · rw [hc]; exact ih st h
    · rw [hc]; exact ih _ h
    · rw [hc]; exact ih _ rfl

theorem localFold_u_false (rm : Bytes → Option Manifest) (dir : String) :
    ∀ (es : List LocalFile) (st : List DiscoveredPlugin × Bool × Cache),
      (es.foldl (localStep rm dir) st).2.1 = false →
      (es.foldl (localStep rm dir) st).2.2 = st.2.2 ∧ st.2.1 = false := by
  intro es
  induction es with
  | nil => intro st h; exact ⟨rfl, h⟩
  | cons e rest ih =>
    intro st h
    rw [List.foldl_cons] at h ⊢
    rcases localStep_split rm dir st e with hc | ⟨cached, _, _, _, hc⟩ | ⟨m, _, _, hc⟩
    · rw [hc] at h ⊢; exact ih st h
    · rw [hc] at h ⊢
      obtain ⟨h1, h2⟩ := ih _ h
      exact ⟨h1, h2⟩
    · rw [hc] at h
      have hmono := localFold_u_mono rm dir rest
        (st.1 ++ [⟨m, fun _ => Except.ok e.bytes, "local", joinPath dir e.name⟩], true,
          mapInsert st.2.2 (joinPath dir e.name) ⟨e.modTime, e.bytes.length, m⟩) rfl
      rw [h] at hmono
      exact absurd hmono (by simp)

theorem localFold_diff (rm : Bytes → Option Manifest) (dir : String) :
    ∀ (es : List LocalFile) (st : List DiscoveredPlugin × Bool × Cache),
      (es.map (fun e => e.name)).Nodup →
      st.2.1 = false → (es.foldl (localStep rm dir) st).2.1 = true →
      ∃ k, (∃ e ∈ es, k = joinPath dir e.name) ∧
        mapLookup (es.foldl (localStep rm dir) st).2.2 k ≠ mapLookup st.2.2 k := by
  intro es
  induction es with
  | nil =>
    intro st _ h0 h1
    rw [List.foldl_nil] at h1
    rw [h0] at h1
    exact absurd h1 (by simp)
  | cons e rest ih =>
    intro st hnodup h0 h1
    have htailnd : (rest.map (fun e => e.name)).Nodup :=
      (List.nodup_cons.mp (by simpa using hnodup)).2
    have hheadnd : e.name ∉ rest.map (fun e => e.name) :=
      (List.nodup_cons.mp (by simpa using hnodup)).1
    rw [List.foldl_cons] at h1 ⊢
    rcases localStep_split rm dir st e with hc | ⟨cached, hl, hs, hm, hc⟩ |
      ⟨m, hrm, hmiss, hc⟩
    · rw [hc] at h1 ⊢
      obtain ⟨k, ⟨x, hx, hkx⟩, hdiff⟩ := ih st htailnd h0 h1
      exact ⟨k, ⟨x, List.mem_cons_of_mem e hx, hkx⟩, hdiff⟩
    · rw [hc] at h1 ⊢
      obtain ⟨k, ⟨x, hx, hkx⟩, hdiff⟩ := ih (st.1 ++ [localHitPlugin dir e cached],
        st.2.1, st.2.2) htailnd h0 h1
      exact ⟨k, ⟨x, List.mem_cons_of_mem e hx, hkx⟩, hdiff⟩
    · rw [hc]
      refine ⟨joinPath dir e.name, ⟨e, List.mem_cons_self e rest, rfl⟩, ?_⟩
      have huntouched : mapLookup (rest.foldl (localStep rm dir)
          (st.1 ++ [⟨m, fun _ => Except.ok e.bytes, "local", joinPath dir e.name⟩], true,
            mapInsert st.2.2 (joinPath dir e.name)
              ⟨e.modTime, e.bytes.length, m⟩)).2.2 (joinPath dir e.name) =
          mapLookup (mapInsert st.2.2 (joinPath dir e.name)
            ⟨e.modTime, e.bytes.length, m⟩) (joinPath dir e.name) := by
        refine localFold_untouched rm dir rest _ (joinPath dir e.name) ?_
        intro x hx hkx
        exact hheadnd (by
          rw [← joinPath_inj dir x.name e.name hkx]
          exact List.mem_map_of_mem (fun e => e.name) hx)
      rw [huntouched, mapLookup_insert_self]
      rcases hmiss with hnone | ⟨cached, hsome, hcond⟩
      · rw [hnone]
        simp
      · rw [hsome]
        intro heq
        have h2 := Option.some.inj heq
        apply hcond
        constructor
        · exact (congrArg CacheEntry.size h2).symm
        · exact (congrArg CacheEntry.modTime h2).symm

theorem localFold_allhit (rm : Bytes → Option Manifest) (dir : String) :
    ∀ (es : List LocalFile) (st : List DiscoveredPlugin × Bool × Cache),
      localAllHit dir es st.2.2 →
      ∃ qs, es.foldl (localStep rm dir) st = (st.1 ++ qs, st.2.1, st.2.2) ∧
        ∀ p ∈ qs, ∃ key cached, mapLookup st.2.2 key = some cached ∧
          p.manifest = cached.manifest := by
  intro es
  induction es with
  | nil =>
    intro st _
    exact ⟨[], by simp, by simp⟩
  | cons e rest ih =>
    intro st hhit
    have htail : localAllHit dir rest st.2.2 :=
      fun x hx hc => hhit x (List.mem_cons_of_mem e hx) hc
    rw [List.foldl_cons]
    by_cases hcand : localWasmCandidate e = true
    · obtain ⟨cached, hlook, hsz, hmt⟩ := hhit e (List.mem_cons_self e rest) hcand
      have hstep : localStep rm dir st e =
          (st.1 ++ [localHitPlugin dir e cached], st.2.1, st.2.2) := by
        obtain ⟨ps, u, c⟩ := st
        simp only at hlook
        simp [localStep, hcand, hlook, hsz, hmt]
      rw [hstep]
      obtain ⟨qs, heq, hq⟩ := ih (st.1 ++ [localHitPlugin dir e cached], st.2.1, st.2.2)
        htail
      refine ⟨localHitPlugin dir e cached :: qs, by
        rw [heq]; simp, ?_⟩
      intro p hp
      rcases List.mem_cons.mp hp with rfl | hp2
      · exact ⟨joinPath dir e.name, cached, hlook, rfl⟩
      · exact hq p hp2
    · have hstep : localStep rm dir st e = st := by
        obtain ⟨ps, u, c⟩ := st
        simp [localStep, hcand]
      rw [hstep]
      exact ih st htail

theorem embeddedFold_untouched (rm : Bytes → Option Manifest) :
    ∀ (es : List EmbedFile) (st : List DiscoveredPlugin × Bool × Cache) (k : String),
      (∀ e ∈ es, embeddedKey e.name ≠ k) →
      mapLookup (es.foldl (embeddedStep rm) st).2.2 k = mapLookup st.2.2 k := by
  intro es
  induction es with
  | nil => intro st k _; rfl
  | cons e rest ih =>
    intro st k hk
    rw [List.foldl_cons]
    have htail : ∀ x ∈ rest, embeddedKey x.name ≠ k :=
      fun x hx => hk x (List.mem_cons_of_mem e hx)
    rcases embeddedStep_split rm st e with hc | ⟨cached, _, _, hc⟩ | ⟨m, _, _, hc⟩
    · rw [hc]; exact ih st k htail
    · rw [hc, ih _ k htail]
    · rw [hc, ih _ k htail]
      exact mapLookup_insert_ne st.2.2 (embeddedKey e.name) k _
        (hk e (List.mem_cons_self e rest))

theorem embeddedFold_u_mono (rm : Bytes → Option Manifest) :
    ∀ (es : List EmbedFile) (st : List DiscoveredPlugin × Bool × Cache),
      st.2.1 = true → (es.foldl (embeddedStep rm) st).2.1 = true := by
  intro es
  induction es with
  | nil => intro st h; exact h
  | cons e rest ih =>
    intro st h
    rw [List.foldl_cons]
    rcases embeddedStep_split rm st e with hc | ⟨cached, _, _, hc⟩ | ⟨m, _, _, hc⟩
    · rw [hc]; exact ih st h
    · rw [hc]; exact ih _ h
    · rw [hc]; exact ih _ rfl

theorem embeddedFold_u_false (rm : Bytes → Option Manifest) :
    ∀ (es : List EmbedFile) (st : List DiscoveredPlugin × Bool × Cache),
      (es.foldl (embeddedStep rm) st).2.1 = false →
      (es.foldl (embeddedStep rm) st).2.2 = st.2.2 ∧ st.2.1 = false := by
  intro es
  induction es with
  | nil => intro st h; exact ⟨rfl, h⟩
  | cons e rest ih =>
    intro st h
    rw [List.foldl_cons] at h ⊢
    rcases embeddedStep_split rm st e with hc | ⟨cached, _, _, hc⟩ | ⟨m, _, _, hc⟩
    · rw [hc] at h ⊢; exact ih st h
    · rw [hc] at h ⊢
      obtain ⟨h1, h2⟩ := ih _ h
      exact ⟨h1, h2⟩
    · rw [hc] at h
      have hmono := embeddedFold_u_mono rm rest
        (st.1 ++ [⟨m, fun _ => Except.ok e.bytes, "embedded", embeddedKey e.name⟩], true,
          mapInsert st.2.2 (embeddedKey e.name) ⟨0, e.bytes.length, m⟩) rfl
      rw [h] at hmono
      exact absurd hmono (by simp)

theorem embeddedFold_diff (rm : Bytes → Option Manifest) :
    ∀ (es : List EmbedFile) (st : List DiscoveredPlugin × Bool × Cache),
      (es.map (fun e => e.name)).Nodup →
      st.2.1 = false → (es.foldl (embeddedStep rm) st).2.1 = true →
      ∃ k, (∃ e ∈ es, k = embeddedKey e.name) ∧
        mapLookup (es.foldl (embeddedStep rm) st).2.2 k ≠ mapLookup st.2.2 k := by
  intro es
  induction es with
  | nil =>
    intro st _ h0 h1
    rw [List.foldl_nil] at h1
    rw [h0] at h1
    exact absurd h1 (by simp)
  | cons e rest ih =>
    intro st hnodup h0 h1
    have htailnd : (rest.map (fun e => e.name)).Nodup :=
      (List.nodup_cons.mp (by simpa using hnodup)).2
    have hheadnd : e.name ∉ rest.map (fun e => e.name) :=
      (List.nodup_cons.mp (by simpa using hnodup)).1
    rw [List.foldl_cons] at h1 ⊢
    rcases embeddedStep_split rm st e with hc | ⟨cached, hl, hs, hc⟩ |
      ⟨m, hrm, hmiss, hc⟩
    · rw [hc] at h1 ⊢
      obtain ⟨k, ⟨x, hx, hkx⟩, hdiff⟩ := ih st htailnd h0 h1
      exact ⟨k, ⟨x, List.mem_cons_of_mem e hx, hkx⟩, hdiff⟩
    · rw [hc] at h1 ⊢
      obtain ⟨k, ⟨x, hx, hkx⟩, hdiff⟩ := ih (st.1 ++ [embeddedHitPlugin e cached],
        st.2.1, st.2.2) htailnd h0 h1
      exact ⟨k, ⟨x, List.mem_cons_of_mem e hx, hkx⟩, hdiff⟩
    · rw [hc]
      refine ⟨embeddedKey e.name, ⟨e, List.mem_cons_self e rest, rfl⟩, ?_⟩
      have huntouched : mapLookup (rest.foldl (embeddedStep rm)
          (st.1 ++ [⟨m, fun _ => Except.ok e.bytes, "embedded", embeddedKey e.name⟩], true,
            mapInsert st.2.2 (embeddedKey e.name) ⟨0, e.bytes.length, m⟩)).2.2
            (embeddedKey e.name) =
          mapLookup (mapInsert st.2.2 (embeddedKey e.name)
            ⟨0, e.bytes.length, m⟩) (embeddedKey e.name) := by
        refine embeddedFold_untouched rm rest _ (embeddedKey e.name) ?_
        intro x hx hkx
        exact hheadnd (by
          rw [← embeddedKey_inj x.name e.name hkx]
          exact List.mem_map_of_mem (fun e => e.name) hx)
      rw [huntouched, mapLookup_insert_self]
      rcases hmiss with hnone | ⟨cached, hsome, hcond⟩
      · rw [hnone]
        simp
      · rw [hsome]
        intro heq
        have h2 := Option.some.inj heq
        exact hcond (congrArg CacheEntry.size h2).symm

theorem embeddedFold_allhit (rm : Bytes → Option Manifest) :
    ∀ (es : List EmbedFile) (st : List DiscoveredPlugin × Bool × Cache),
      embeddedAllHit es st.2.2 →
      ∃ qs, es.foldl (embeddedStep rm) st = (st.1 ++ qs, st.2.1, st.2.2) ∧
        ∀ p ∈ qs, ∃ key cached, mapLookup st.2.2 key = some cached ∧
          p.manifest = cached.manifest := by
  intro es
  induction es with
  | nil =>
    intro st _
    exact ⟨[], by simp, by simp⟩
  | cons e rest ih =>
    intro st hhit
    have htail : embeddedAllHit rest st.2.2 :=
      fun x hx hc => hhit x (List.mem_cons_of_mem e hx) hc
    rw [List.foldl_cons]
    by_cases hcand : embedWasmCandidate e = true
    · obtain ⟨cached, hlook, hsz⟩ := hhit e (List.mem_cons_self e rest) hcand
      have hstep : embeddedStep rm st e =
          (st.1 ++ [embeddedHitPlugin e cached], st.2.1, st.2.2) := by
        obtain ⟨ps, u, c⟩ := st
        simp only at hlook
        simp [embeddedStep, hcand, hlook, hsz]
      rw [hstep]
      obtain ⟨qs, heq, hq⟩ := ih (st.1 ++ [embeddedHitPlugin e cached], st.2.1, st.2.2)
        htail
      refine ⟨embeddedHitPlugin e cached :: qs, by
        rw [heq]; simp, ?_⟩
      intro p hp
      rcases List.mem_cons.mp hp with rfl | hp2
      · exact ⟨embeddedKey e.name, cached, hlook, rfl⟩
      · exact hq p hp2
    · have hstep : embeddedStep rm st e = st := by
        obtain ⟨ps, u, c⟩ := st
        simp [embeddedStep, hcand]
      rw [hstep]
      exact ih st htail

theorem mem_values_mapInsert {α : Type} (m : List (String × α)) (k : String) (v p : α)
    (h : p ∈ (mapInsert m k v).map Prod.snd) : p = v ∨ p ∈ m.map Prod.snd := by
  induction m with
  | nil => simpa [mapInsert] using h
  | cons hd tl ih =>
    by_cases hh : hd.1 = k
    · rw [show mapInsert (hd :: tl) k v = (k, v) :: tl from by simp [mapInsert, hh]] at h
      rw [List.map_cons, List.mem_cons] at h
      rcases h with h | h
      · exact Or.inl h
      · exact Or.inr (by rw [List.map_cons, List.mem_cons]; exact Or.inr h)
    · rw [show mapInsert (hd :: tl) k v = hd :: mapInsert tl k v
          from by simp [mapInsert, hh]] at h
      rw [List.map_cons, List.mem_cons] at h
      rcases h with h | h
      · exact Or.inr (by rw [List.map_cons, List.mem_cons]; exact Or.inl h)
      · rcases ih h with h2 | h2
        · exact Or.inl h2
        · exact Or.inr (by rw [List.map_cons, List.mem_cons]; exact Or.inr h2)

theorem pluginsByName_values (ps : List DiscoveredPlugin)
    (m : List (String × DiscoveredPlugin)) (p : DiscoveredPlugin)
    (h : p ∈ (pluginsByName ps m).map Prod.snd) : p ∈ ps ∨ p ∈ m.map Prod.snd := by
  induction ps generalizing m with
  | nil => exact Or.inr h
  | cons q rest ih =>
    rcases ih (mapInsert m q.manifest.name q) h with h2 | h2
    · exact Or.inl (List.mem_cons_of_mem q h2)
    · rcases mem_values_mapInsert m q.manifest.name q p h2 with h3 | h3
      · exact Or.inl (h3 ▸ List.mem_cons_self q rest)
      · exact Or.inr h3

/-- **C9.**  In one `DiscoverAll` pass over an existing plugins directory, the
cache file is written at most once, and only when at least one cache entry
changed during the pass; when every candidate of both tiers is a cache hit,
nothing is written and every discovered manifest is one recorded in the
original cache. -/
theorem discoverAll_cache_write_discipline
    (rm : Bytes → Option Manifest) (dir : String) (embedded : List EmbedFile)
    (les : List LocalFile) (cache₀ : Cache)
    (pm : List (String × DiscoveredPlugin)) (saves : List Cache)
    (hres : DiscoverAll rm dir embedded (.ok les) cache₀ = .ok (pm, saves))
    (hnE : (embedded.map (fun e => e.name)).Nodup)
    (hnL : (les.map (fun e => e.name)).Nodup)
    (hdisj : ∀ eE ∈ embedded, ∀ eL ∈ les,
      embeddedKey eE.name ≠ joinPath dir eL.name) :
    saves.length ≤ 1
    ∧ (∀ c ∈ saves, ∃ k, mapLookup c k ≠ mapLookup cache₀ k)
    ∧ (embeddedAllHit embedded cache₀ → localAllHit dir les cache₀ →
        saves = [] ∧ ∀ nm p, mapLookup pm nm = some p →
          ∃ key cached, mapLookup cache₀ key = some cached ∧
            p.manifest = cached.manifest) := by
  have h := hres
  simp only [DiscoverAll, Except.ok.injEq, Prod.mk.injEq] at h
  obtain ⟨hpm, hsaves⟩ := h
  refine ⟨?_, ?_, ?_⟩
  · rw [← hsaves]
    by_cases hor : ((loadEmbeddedPlugins rm embedded cache₀).2.1 ||
        (loadLocalPlugins rm dir les (loadEmbeddedPlugins rm embedded cache₀).2.2).2.1)
        = true
    · rw [if_pos hor]; simp
    · rw [if_neg hor]; simp
  · intro c hc
    rw [← hsaves] at hc
    by_cases hor : ((loadEmbeddedPlugins rm embedded cache₀).2.1 ||
        (loadLocalPlugins rm dir les (loadEmbeddedPlugins rm embedded cache₀).2.2).2.1)
        = true
    · rw [if_pos hor] at hc
      have hceq : c = (loadLocalPlugins rm dir les
          (loadEmbeddedPlugins rm embedded cache₀).2.2).2.2 := List.mem_singleton.mp hc
      subst hceq
      cases huE : (loadEmbeddedPlugins rm embedded cache₀).2.1 with
      | false =>
        have huL : (loadLocalPlugins rm dir les
            (loadEmbeddedPlugins rm embedded cache₀).2.2).2.1 = true := by
          rcases Bool.or_eq_true_iff.mp hor with h2 | h2
          · exact absurd h2 (by rw [huE]; simp)
          · exact h2
        have hE22 : (loadEmbeddedPlugins rm embedded cache₀).2.2 = cache₀ :=
          (embeddedFold_u_false rm embedded ([], false, cache₀) huE).1
        rw [hE22] at huL ⊢
        obtain ⟨k, _, hdiff⟩ := localFold_diff rm dir les
          ([], false, cache₀) hnL rfl huL
        exact ⟨k, hdiff⟩
      | true =>
        obtain ⟨k, ⟨eE, heE, hkE⟩, hdiff⟩ := embeddedFold_diff rm embedded
          ([], false, cache₀) hnE rfl huE
        refine ⟨k, ?_⟩
        have huntouched : mapLookup (loadLocalPlugins rm dir les
            (loadEmbeddedPlugins rm embedded cache₀).2.2).2.2 k =
            mapLookup (loadEmbeddedPlugins rm embedded cache₀).2.2 k := by
          refine localFold_untouched rm dir les
            ([], false, (loadEmbeddedPlugins rm embedded cache₀).2.2) k ?_
          intro eL hL hkc
          exact hdisj eE heE eL hL (hkc.trans hkE).symm
        rw [huntouched]
        exact hdiff
    · rw [if_neg hor] at hc
      exact absurd hc (by simp)
  · intro hEhit hLhit
    obtain ⟨qsE, heqE, hqE⟩ := embeddedFold_allhit rm embedded ([], false, cache₀) hEhit
    have hEeq : loadEmbeddedPlugins rm embedded cache₀ = (qsE, false, cache₀) := by
      rw [show loadEmbeddedPlugins rm embedded cache₀ =
        embedded.foldl (embeddedStep rm) ([], false, cache₀) from rfl, heqE]
      simp
    have hLhit2 : localAllHit dir les
        (([], false, (loadEmbeddedPlugins rm embedded cache₀).2.2) :
          List DiscoveredPlugin × Bool × Cache).2.2 := by
      rw [show (([], false, (loadEmbeddedPlugins rm embedded cache₀).2.2) :
        List DiscoveredPlugin × Bool × Cache).2.2 =
        (loadEmbeddedPlugins rm embedded cache₀).2.2 from rfl, hEeq]
      exact hLhit
    obtain ⟨qsL, heqL, hqL⟩ := localFold_allhit rm dir les
      ([], false, (loadEmbeddedPlugins rm embedded cache₀).2.2) hLhit2
    have hLeq : loadLocalPlugins rm dir les (loadEmbeddedPlugins rm embedded cache₀).2.2 =
        (qsL, false, (loadEmbeddedPlugins rm embedded cache₀).2.2) := by
      rw [show loadLocalPlugins rm dir les (loadEmbeddedPlugins rm embedded cache₀).2.2 =
        les.foldl (localStep rm dir)
          ([], false, (loadEmbeddedPlugins rm embedded cache₀).2.2) from rfl, heqL]
      simp
    constructor
    · have hcond : ¬ ((loadEmbeddedPlugins rm embedded cache₀).2.1 ||
          (loadLocalPlugins rm dir les
            (loadEmbeddedPlugins rm embedded cache₀).2.2).2.1) = true := by
        rw [hLeq, hEeq]
        simp
      rw [← hsaves, if_neg hcond]
    · intro nm p hlook
      rw [← hpm] at hlook
      have hval := mapLookup_mem_values _ nm p hlook
      rcases pluginsByName_values _ _ p hval with hmem | hval2
      · have hpqs : p ∈ qsL := by
          rw [show (loadLocalPlugins rm dir les
            (loadEmbeddedPlugins rm embedded cache₀).2.2).1 = qsL
            from by rw [hLeq]] at hmem
          exact hmem
        obtain ⟨key, cached, hkc, hman⟩ := hqL p hpqs
        refine ⟨key, cached, ?_, hman⟩
        rw [show (([], false, (loadEmbeddedPlugins rm embedded cache₀).2.2) :
          List DiscoveredPlugin × Bool × Cache).2.2 =
          (loadEmbeddedPlugins rm embedded cache₀).2.2 from rfl, hEeq] at hkc
        exact hkc
      · rcases pluginsByName_values _ _ p hval2 with hmem | hval3
        · have hpqs : p ∈ qsE := by
            rw [show (loadEmbeddedPlugins rm embedded cache₀).1 = qsE
              from by rw [hEeq]] at hmem
            exact hmem
          obtain ⟨key, cached, hkc, hman⟩ := hqE p hpqs
          exact ⟨key, cached, hkc, hman⟩
        · simp at hval3

/-- Witness for C9: a pass over one uncached local plugin produces exactly one
cache write. -/
theorem discoverAll_cache_write_discipline_witness :
    DiscoverAll rmTier "/p" [] (.ok [locDnsFile]) [] =
      .ok ([("dns", pLocalDns)], [cacheLocalOnly])
    ∧ ([cacheLocalOnly] : List Cache).length ≤ 1 :=
  ⟨rfl, (discoverAll_cache_write_discipline rmTier "/p" [] [locDnsFile] []
    [("dns", pLocalDns)] [cacheLocalOnly] rfl (by decide) (by decide)
    (by intro eE heE; simp at heE)).1⟩

end Tack
